import Mathlib

/-!
# Verification of the `VaultIndex` registry (src/cli/src/vaults.rs)

A shallow embedding of the vault-index registry: a single binary file holding a
12-byte header (8-byte magic + 4-byte little-endian version) followed by
contiguous 16-byte records, each a zero-padded UTF-8 name (all-zero = empty
slot), plus an in-memory list of names.

The file is modelled as a list of bytes (`Nat`s) with an explicit cursor, and
an optional fault-injection offset `bad` modelling an underlying I/O failure:
any read or write whose byte range covers `bad` fails with an I/O error, as a
failing disk would.  The fault-free runs are the `bad = none` instances.
-/

/-- Error kinds carried by `io::Error` values the code creates or matches on.
`invalidInput` keeps the message string so the three validation failures of
`add` stay distinguishable, as in the source. -/
inductive VErr where
  | invalidInput (msg : String)
  | invalidData
  | ioError
  | unexpectedEof
deriving DecidableEq, Repr

/-- A UTF-8 continuation byte (`0x80..0xBF`). -/
def contB (b : Nat) : Bool := decide (0x80 ≤ b ∧ b ≤ 0xBF)

/-- UTF-8 validity of a byte sequence, as checked by `std::str::from_utf8`
(rejecting overlong forms, surrogates and code points above `U+10FFFF`). -/
def utf8Valid : List Nat → Bool
  | [] => true
  | b :: rest =>
    if b ≤ 0x7F then utf8Valid rest
    else if b < 0xC2 then false
    else if b ≤ 0xDF then
      match rest with
      | c1 :: r => contB c1 && utf8Valid r
      | [] => false
    else if b ≤ 0xEF then
      match rest with
      | c1 :: c2 :: r =>
        (if b = 0xE0 then decide (0xA0 ≤ c1 ∧ c1 ≤ 0xBF)
         else if b = 0xED then decide (0x80 ≤ c1 ∧ c1 ≤ 0x9F)
         else contB c1) && contB c2 && utf8Valid r
      | _ => false
    else if b ≤ 0xF4 then
      match rest with
      | c1 :: c2 :: c3 :: r =>
        (if b = 0xF0 then decide (0x90 ≤ c1 ∧ c1 ≤ 0xBF)
         else if b = 0xF4 then decide (0x80 ≤ c1 ∧ c1 ≤ 0x8F)
         else contB c1) && contB c2 && contB c3 && utf8Valid r
      | _ => false
    else false

/-- `MAGIC = b"VUOTOIDX"`. -/
def MAGIC : List Nat := [0x56, 0x55, 0x4F, 0x54, 0x4F, 0x49, 0x44, 0x58]

/-- `VERSION.to_le_bytes()` for `VERSION = 1u32`. -/
def VERSION_LE : List Nat := [1, 0, 0, 0]

/-- `HEADER_SIZE = MAGIC.len() + 4 = 12`. -/
def HEADER_SIZE : Nat := 12

/-- `RECORD_SIZE = 16`. -/
def RECORD_SIZE : Nat := 16

/-- The backing file: byte contents, current cursor, and an optional
fault-injected byte offset at which the underlying device fails. -/
structure VFile where
  data : List Nat
  pos : Nat
  bad : Option Nat
deriving DecidableEq, Repr

/-- Does an access of `n` bytes starting at `off` touch the faulty offset? -/
def badIn (bad : Option Nat) (off n : Nat) : Bool :=
  match bad with
  | none => false
  | some b => decide (off ≤ b ∧ b < off + n)

/-- `Write::write_all` at the cursor: overwrite in place, zero-fill any gap
beyond EOF, extend the file as needed; fails if the range hits the fault. -/
def fwrite (f : VFile) (bs : List Nat) : Except VErr VFile :=
  if badIn f.bad f.pos bs.length then .error .ioError
  else .ok { data := f.data.take f.pos ++ List.replicate (f.pos - f.data.length) 0
                      ++ bs ++ f.data.drop (f.pos + bs.length),
             pos := f.pos + bs.length, bad := f.bad }

/-- `Read::read_exact` of `n` bytes at the cursor: a device fault inside the
bytes actually touched surfaces as an I/O error, reaching EOF before `n`
bytes yields `UnexpectedEof`. -/
def freadExact (f : VFile) (n : Nat) : Except VErr (List Nat × VFile) :=
  if badIn f.bad f.pos (min n (f.data.length - f.pos)) then .error .ioError
  else if f.data.length - f.pos < n then .error .unexpectedEof
  else .ok ((f.data.drop f.pos).take n, ⟨f.data, f.pos + n, f.bad⟩)

/-- `u32::from_le_bytes` on a 4-byte list. -/
def u32le (bs : List Nat) : Nat :=
  match bs with
  | [b0, b1, b2, b3] => b0 + 256 * b1 + 65536 * b2 + 16777216 * b3
  | _ => 0

/-- `VaultIndex::check_header`: seek to 0, read the 12-byte header, compare
magic and little-endian version; a short file is merely invalid (`false`),
other read errors propagate. -/
def check_header (f : VFile) : Except VErr (Bool × VFile) :=
  let f0 : VFile := ⟨f.data, 0, f.bad⟩
  match freadExact f0 HEADER_SIZE with
  | .ok (header, f1) =>
      if header.take 8 = MAGIC then .ok (decide (u32le (header.drop 8) = 1), f1)
      else .ok (false, f1)
  | .error .unexpectedEof => .ok (false, f0)
  | .error e => .error e

/-- `VaultIndex::init_file`: truncate to zero, write magic and version, leave
the cursor at `HEADER_SIZE`. -/
def init_file (f : VFile) : Except VErr VFile := do
  let f0 : VFile := { data := [], pos := 0, bad := f.bad }
  let f1 ← fwrite f0 MAGIC
  let f2 ← fwrite f1 VERSION_LE
  .ok ⟨f2.data, HEADER_SIZE, f2.bad⟩

/-- The registry: in-memory name list (names as UTF-8 byte lists) plus the
backing file handle. -/
structure VaultIndex where
  vaults : List (List Nat)
  file : VFile
deriving DecidableEq, Repr

/-- The record-scanning loop of `VaultIndex::open`: read 16-byte chunks;
a zero-length or short read ends the scan, an all-zero record is skipped,
any other record is decoded by truncating at the first NUL and checking
UTF-8 (`InvalidData` on failure). -/
def openScan (f : VFile) (acc : List (List Nat)) :
    Except VErr (List (List Nat) × VFile) :=
  if badIn f.bad f.pos (min RECORD_SIZE (f.data.length - f.pos)) then
    .error .ioError
  else if h : f.data.length - f.pos < RECORD_SIZE then
    .ok (acc, ⟨f.data, f.pos + (f.data.length - f.pos), f.bad⟩)
  else
    let buf := (f.data.drop f.pos).take RECORD_SIZE
    let f1 : VFile := ⟨f.data, f.pos + RECORD_SIZE, f.bad⟩
    if buf.all (· == 0) then openScan f1 acc
    else
      let len := buf.findIdx (· == 0)
      let nm := buf.take len
      if utf8Valid nm then openScan f1 (acc ++ [nm])
      else .error .invalidData
termination_by f.data.length - f.pos
decreasing_by
  all_goals simp_all [RECORD_SIZE]
  all_goals omega

/-- `VaultIndex::open`, given the initial contents of `index.vuoto` (empty
list if the file was just created): validate the header, reinitialize on
mismatch, scan the records, leave the cursor at EOF. -/
def openIndex (data : List Nat) (bad : Option Nat) : Except VErr VaultIndex := do
  let f : VFile := { data := data, pos := 0, bad := bad }
  let (hdrOk, f1) ← check_header f
  let f2 ← if hdrOk then pure f1 else init_file f1
  let f3 : VFile := ⟨f2.data, HEADER_SIZE, f2.bad⟩
  let (vaults, f4) ← openScan f3 []
  .ok ⟨vaults, ⟨f4.data, f4.data.length, f4.bad⟩⟩

/-- `VaultIndex::calculate_offset_for_slot`. -/
def calculate_offset_for_slot (slot : Nat) : Nat :=
  HEADER_SIZE + slot * RECORD_SIZE

/-- The slot-seeking loop of `VaultIndex::add`: `read_exact` 16-byte chunks
from the cursor, stopping at the first all-zero chunk (yielding its index);
`UnexpectedEof` ends the loop with no slot, other errors propagate. -/
def addScan (f : VFile) (idx : Nat) : Except VErr (Option Nat × VFile) :=
  if badIn f.bad f.pos (min RECORD_SIZE (f.data.length - f.pos)) then
    .error .ioError
  else if h : f.data.length - f.pos < RECORD_SIZE then .ok (none, f)
  else
    let buf := (f.data.drop f.pos).take RECORD_SIZE
    let f1 : VFile := ⟨f.data, f.pos + RECORD_SIZE, f.bad⟩
    if buf.all (· == 0) then .ok (some idx, f1)
    else addScan f1 (idx + 1)
termination_by f.data.length - f.pos
decreasing_by
  all_goals simp_all [RECORD_SIZE]
  all_goals omega

/-- `VaultIndex::add`: validate the name (non-empty, ≤ 16 bytes, no NUL, in
that order), no-op if already present in memory, otherwise write the
zero-padded record into the first all-zero slot or append at EOF, then push
the name onto the in-memory list.  Returns the result together with the
state of `self` when the call returns (also on error paths). -/
def addOp (st : VaultIndex) (name : List Nat) : Except VErr Unit × VaultIndex :=
  if name = [] then
    (.error (.invalidInput "name must be non-empty"), st)
  else if RECORD_SIZE < name.length then
    (.error (.invalidInput "name byte-length must be <= 16 bytes"), st)
  else if name.any (· == 0) then
    (.error (.invalidInput "name cannot contain NUL"), st)
  else if name ∈ st.vaults then (.ok (), st)
  else
    let record := name ++ List.replicate (RECORD_SIZE - name.length) 0
    let f : VFile := ⟨st.file.data, HEADER_SIZE, st.file.bad⟩
    match addScan f 0 with
    | .error e => (.error e, ⟨st.vaults, f⟩)
    | .ok (slotIdx, f1) =>
      let f2 : VFile :=
        match slotIdx with
        | some slot => ⟨f1.data, calculate_offset_for_slot slot, f1.bad⟩
        | none => ⟨f1.data, f1.data.length, f1.bad⟩
      match fwrite f2 record with
      | .error e => (.error e, ⟨st.vaults, f2⟩)
      | .ok f3 =>
        (.ok (), ⟨st.vaults ++ [name], ⟨f3.data, f3.data.length, f3.bad⟩⟩)

/-- The record-finding loop of `VaultIndex::remove`: a `while let Ok(())`
over `read_exact`, so ANY read error (EOF or a genuine device fault) merely
ends the loop; empty slots are skipped but still counted, occupied slots are
decoded (propagating `InvalidData` on bad UTF-8) and compared to `name`. -/
def removeScan (name : List Nat) (f : VFile) (idx : Nat) :
    Except VErr (Bool × Nat × VFile) :=
  if badIn f.bad f.pos (min RECORD_SIZE (f.data.length - f.pos)) then
    .ok (false, idx, f)
  else if h : f.data.length - f.pos < RECORD_SIZE then .ok (false, idx, f)
  else
    let buf := (f.data.drop f.pos).take RECORD_SIZE
    let f1 : VFile := ⟨f.data, f.pos + RECORD_SIZE, f.bad⟩
    if buf.all (· == 0) then removeScan name f1 (idx + 1)
    else
      let len := buf.findIdx (· == 0)
      let nm := buf.take len
      if utf8Valid nm then
        if nm = name then .ok (true, idx, f1)
        else removeScan name f1 (idx + 1)
      else .error .invalidData
termination_by f.data.length - f.pos
decreasing_by
  all_goals simp_all [RECORD_SIZE]
  all_goals omega

/-- `VaultIndex::remove`: "not found" (false) without touching the file when
the name is absent from memory; otherwise scan the records for the first
matching slot, always drop the name from the in-memory list once membership
is confirmed, return true even when no on-disk record was located, and
otherwise overwrite the found slot with zeros. -/
def removeOp (st : VaultIndex) (name : List Nat) :
    Except VErr Bool × VaultIndex :=
  if name ∉ st.vaults then (.ok false, st)
  else
    let f : VFile := ⟨st.file.data, HEADER_SIZE, st.file.bad⟩
    match removeScan name f 0 with
    | .error e => (.error e, ⟨st.vaults, f⟩)
    | .ok (found, idx, f1) =>
      let vaults2 := st.vaults.erase name
      if ¬ found then (.ok true, ⟨vaults2, f1⟩)
      else
        let f2 : VFile := ⟨f1.data, calculate_offset_for_slot idx, f1.bad⟩
        match fwrite f2 (List.replicate RECORD_SIZE 0) with
        | .error e => (.error e, ⟨vaults2, f2⟩)
        | .ok f3 =>
          (.ok true, ⟨vaults2, ⟨f3.data, f3.data.length, f3.bad⟩⟩)

instance {α : Type} [DecidableEq α] : DecidableEq (Except VErr α) :=
  fun a b =>
    match a, b with
    | .ok x, .ok y =>
      if h : x = y then isTrue (by rw [h])
      else isFalse (by intro hc; cases hc; exact h rfl)
    | .error x, .error y =>
      if h : x = y then isTrue (by rw [h])
      else isFalse (by intro hc; cases hc; exact h rfl)
    | .ok _, .error _ => isFalse (by intro hc; cases hc)
    | .error _, .ok _ => isFalse (by intro hc; cases hc)

/-! ## Pure views of the on-disk layout

These definitions give a chunked, cursor-free view of a file's bytes, used to
state and prove properties of the operations above. -/

/-- The 16-byte chunks of a byte region, a trailing fragment shorter than one
record being dropped. -/
def slotsOf (r : List Nat) : List (List Nat) :=
  if h : r.length < RECORD_SIZE then []
  else r.take RECORD_SIZE :: slotsOf (r.drop RECORD_SIZE)
termination_by r.length
decreasing_by
  simp_all [RECORD_SIZE]
  omega

/-- An all-zero (empty) slot. -/
def slotEmpty (c : List Nat) : Bool := c.all (· == 0)

/-- Decode a record: truncate at the first NUL byte (full width if none). -/
def decodeSlot (c : List Nat) : List Nat := c.take (c.findIdx (· == 0))

/-- A slot the scans accept: empty, or decoding to valid UTF-8. -/
def slotOk (c : List Nat) : Bool := slotEmpty c || utf8Valid (decodeSlot c)

/-- The record chunks of an index file (bytes after the 12-byte header). -/
def records (d : List Nat) : List (List Nat) := slotsOf (d.drop HEADER_SIZE)

/-- Every record chunk of the file is scan-acceptable. -/
def recordsOk (d : List Nat) : Bool := (records d).all slotOk

/-- The decoded names of the occupied slots, in slot order. -/
def decodeAll (cs : List (List Nat)) : List (List Nat) :=
  (cs.filter (fun c => ! slotEmpty c)).map decodeSlot

/-- The name list a fault-free scan of the file produces. -/
def vaultsOfDisk (d : List Nat) : List (List Nat) := decodeAll (records d)

/-- The record `add` writes: the name zero-padded to 16 bytes. -/
def padRecord (name : List Nat) : List Nat :=
  name ++ List.replicate (RECORD_SIZE - name.length) 0

/-- Overwrite record chunk `i` of a file with the 16 bytes `c`. -/
def setChunk (d : List Nat) (i : Nat) (c : List Nat) : List Nat :=
  d.take (HEADER_SIZE + RECORD_SIZE * i) ++ c
    ++ d.drop (HEADER_SIZE + RECORD_SIZE * i + RECORD_SIZE)

/-- Index of the first all-zero chunk of a region, counting from `i`. -/
def firstEmptySlotAux (r : List Nat) (i : Nat) : Option Nat :=
  if h : r.length < RECORD_SIZE then none
  else if slotEmpty (r.take RECORD_SIZE) then some i
  else firstEmptySlotAux (r.drop RECORD_SIZE) (i + 1)
termination_by r.length
decreasing_by
  simp_all [RECORD_SIZE]
  omega

/-- Index of the first all-zero record chunk of a file, if any. -/
def firstEmptySlot (d : List Nat) : Option Nat :=
  firstEmptySlotAux (d.drop HEADER_SIZE) 0

/-- Pure mirror of the record search of `remove` over a region: skip empty
chunks, decode occupied ones (`InvalidData` on bad UTF-8), return the index
of the first chunk decoding exactly to `name`. -/
def findRecAux (name : List Nat) (r : List Nat) (i : Nat) :
    Except VErr (Option Nat) :=
  if h : r.length < RECORD_SIZE then .ok none
  else
    let c := r.take RECORD_SIZE
    if slotEmpty c then findRecAux name (r.drop RECORD_SIZE) (i + 1)
    else if utf8Valid (decodeSlot c) then
      if decodeSlot c = name then .ok (some i)
      else findRecAux name (r.drop RECORD_SIZE) (i + 1)
    else .error .invalidData
termination_by r.length
decreasing_by
  all_goals simp_all [RECORD_SIZE]
  all_goals omega

/-- A file whose first 12 bytes are exactly the current header
(`check_header` succeeds with `true` iff this holds). -/
def validHeader (d : List Nat) : Bool :=
  decide (d.take HEADER_SIZE = MAGIC ++ VERSION_LE)

/-- The records region is whole: the file is a 12-byte header plus a whole
number of 16-byte records (no trailing fragment). -/
def alignedB (d : List Nat) : Bool :=
  decide (HEADER_SIZE ≤ d.length ∧ (d.length - HEADER_SIZE) % RECORD_SIZE = 0)

/-! ## Basic lemmas about the file primitives -/

theorem badIn_none (off n : Nat) : badIn none off n = false := rfl

theorem decodeAll_nil : decodeAll [] = [] := rfl

theorem decodeAll_cons (c : List Nat) (cs : List (List Nat)) :
    decodeAll (c :: cs) =
      if slotEmpty c then decodeAll cs else decodeSlot c :: decodeAll cs := by
  by_cases h : slotEmpty c <;> simp [decodeAll, List.filter_cons, h]

theorem slotsOf_nil_of_short {r : List Nat} (h : r.length < RECORD_SIZE) :
    slotsOf r = [] := by
  rw [slotsOf, dif_pos h]

theorem slotsOf_cons_of_long {r : List Nat} (h : ¬ r.length < RECORD_SIZE) :
    slotsOf r = r.take RECORD_SIZE :: slotsOf (r.drop RECORD_SIZE) := by
  rw [slotsOf, dif_neg h]

theorem drop_drop_record (d : List Nat) (p : Nat) :
    (d.drop p).drop RECORD_SIZE = d.drop (p + RECORD_SIZE) := by
  rw [List.drop_drop, Nat.add_comm]

/-! ## Characterizing `openScan` on fault-free files -/

theorem openScan_ok_aux :
    ∀ (n : Nat) (d : List Nat) (p : Nat) (acc : List (List Nat)),
      d.length - p ≤ n → p ≤ d.length →
      (slotsOf (d.drop p)).all slotOk = true →
      openScan ⟨d, p, none⟩ acc =
        .ok (acc ++ decodeAll (slotsOf (d.drop p)), ⟨d, d.length, none⟩) := by
  have h16 : RECORD_SIZE = 16 := rfl
  intro n
  induction n with
  | zero =>
    intro d p acc hn hp _hok
    have hlt : d.length - p < RECORD_SIZE := by omega
    rw [openScan]
    simp only [badIn_none, Bool.false_eq_true, if_false]
    rw [dif_pos hlt]
    rw [slotsOf_nil_of_short (by simpa using hlt)]
    simp only [decodeAll_nil, List.append_nil]
    have hpos : p + (d.length - p) = d.length := by omega
    rw [hpos]
  | succ n ih =>
    intro d p acc hn hp hok
    by_cases hlt : d.length - p < RECORD_SIZE
    · rw [openScan]
      simp only [badIn_none, Bool.false_eq_true, if_false]
      rw [dif_pos hlt]
      rw [slotsOf_nil_of_short (by simpa using hlt)]
      simp only [decodeAll_nil, List.append_nil]
      have hpos : p + (d.length - p) = d.length := by omega
      rw [hpos]
    · have hslots : slotsOf (d.drop p) =
          (d.drop p).take RECORD_SIZE :: slotsOf (d.drop (p + RECORD_SIZE)) := by
        rw [slotsOf_cons_of_long (by simpa using hlt), drop_drop_record]
      rw [openScan]
      simp only [badIn_none, Bool.false_eq_true, if_false]
      rw [dif_neg hlt]
      rw [hslots] at hok
      simp only [List.all_cons, Bool.and_eq_true] at hok
      obtain ⟨hok1, hok2⟩ := hok
      rw [hslots]
      by_cases hbz : ((d.drop p).take RECORD_SIZE).all (· == 0)
      · simp only [hbz, if_true]
        rw [ih d (p + RECORD_SIZE) acc (by omega) (by omega) hok2]
        rw [decodeAll_cons]
        simp [slotEmpty, hbz]
      · simp only [hbz, Bool.false_eq_true, if_false]
        have hval : utf8Valid (decodeSlot ((d.drop p).take RECORD_SIZE)) = true := by
          rcases Bool.or_eq_true_iff.mp hok1 with h | h
          · exact absurd h (by simpa [slotEmpty] using hbz)
          · exact h
        simp only [decodeSlot] at hval
        simp only [hval, if_true]
        rw [ih d (p + RECORD_SIZE) _ (by omega) (by omega) hok2]
        rw [decodeAll_cons]
        simp [slotEmpty, hbz, decodeSlot, List.append_assoc]

theorem openScan_err_aux :
    ∀ (n : Nat) (d : List Nat) (p : Nat) (acc : List (List Nat)),
      d.length - p ≤ n →
      (slotsOf (d.drop p)).all slotOk = false →
      openScan ⟨d, p, none⟩ acc = .error .invalidData := by
  have h16 : RECORD_SIZE = 16 := rfl
  intro n
  induction n with
  | zero =>
    intro d p acc hn hok
    rw [slotsOf_nil_of_short (by simp; omega)] at hok
    simp at hok
  | succ n ih =>
    intro d p acc hn hok
    by_cases hlt : d.length - p < RECORD_SIZE
    · rw [slotsOf_nil_of_short (by simpa using hlt)] at hok
      simp at hok
    · rw [slotsOf_cons_of_long (by simpa using hlt), drop_drop_record] at hok
      simp only [List.all_cons, Bool.and_eq_true] at hok
      rw [openScan]
      simp only [badIn_none, Bool.false_eq_true, if_false]
      rw [dif_neg hlt]
      by_cases hbz : ((d.drop p).take RECORD_SIZE).all (· == 0)
      · simp only [hbz, if_true]
        apply ih d (p + RECORD_SIZE) acc (by omega)
        have hso : slotOk ((d.drop p).take RECORD_SIZE) = true := by
          simp [slotOk, slotEmpty, hbz]
        rw [hso] at hok
        simpa using hok
      · simp only [hbz, Bool.false_eq_true, if_false]
        by_cases hval : utf8Valid (((d.drop p).take RECORD_SIZE).take
            (((d.drop p).take RECORD_SIZE).findIdx (· == 0)))
        · simp only [hval, if_true]
          apply ih d (p + RECORD_SIZE) _ (by omega)
          have hso : slotOk ((d.drop p).take RECORD_SIZE) = true := by
            simp only [slotOk, decodeSlot]
            rw [hval]
            simp
          rw [hso] at hok
          simpa using hok
        · simp only [hval, Bool.false_eq_true, if_false]

/-! ## Characterizing `check_header`, `init_file` and `openIndex` -/

theorem freadExact_none_ok {d : List Nat} {p n : Nat} (h : p + n ≤ d.length) :
    freadExact ⟨d, p, none⟩ n = .ok ((d.drop p).take n, ⟨d, p + n, none⟩) := by
  rw [freadExact]
  simp only [badIn_none, Bool.false_eq_true, if_false]
  rw [if_neg (by omega)]

theorem freadExact_none_eof {d : List Nat} {p n : Nat} (h : d.length < p + n)
    (hn : 0 < n) : freadExact ⟨d, p, none⟩ n = .error .unexpectedEof := by
  rw [freadExact]
  simp only [badIn_none, Bool.false_eq_true, if_false]
  rw [if_pos (by omega)]

theorem u32le_eq_one {bs : List Nat} (h : bs.length = 4) :
    u32le bs = 1 ↔ bs = [1, 0, 0, 0] := by
  rcases bs with _ | ⟨b0, _ | ⟨b1, _ | ⟨b2, _ | ⟨b3, _ | ⟨b4, t⟩⟩⟩⟩⟩ <;>
    simp_all [u32le] <;> omega

theorem validHeader_length {d : List Nat} (hv : validHeader d = true) :
    HEADER_SIZE ≤ d.length := by
  simp only [validHeader, decide_eq_true_eq] at hv
  have hl := congrArg List.length hv
  simp [MAGIC, VERSION_LE, HEADER_SIZE] at hl ⊢
  omega

theorem check_header_true {f : VFile} (hb : f.bad = none)
    (hv : validHeader f.data = true) :
    check_header f = .ok (true, ⟨f.data, HEADER_SIZE, none⟩) := by
  obtain ⟨d, q, b⟩ := f
  simp only at hb hv
  subst hb
  have hlen := validHeader_length hv
  simp only [validHeader, decide_eq_true_eq] at hv
  have hread : freadExact ⟨d, 0, none⟩ HEADER_SIZE =
      .ok ((d.drop 0).take HEADER_SIZE, ⟨d, 0 + HEADER_SIZE, none⟩) :=
    freadExact_none_ok (by omega)
  simp only [List.drop_zero, Nat.zero_add] at hread
  show (match freadExact (⟨d, 0, none⟩ : VFile) HEADER_SIZE with
    | Except.ok (header, f1) =>
        if header.take 8 = MAGIC then
          Except.ok (decide (u32le (header.drop 8) = 1), f1)
        else Except.ok (false, f1)
    | Except.error VErr.unexpectedEof =>
        Except.ok (false, (⟨d, 0, none⟩ : VFile))
    | Except.error e => Except.error e)
      = Except.ok (true, (⟨d, HEADER_SIZE, none⟩ : VFile))
  rw [hread]
  simp only [hv]
  rw [if_pos (by simp [MAGIC, VERSION_LE])]
  simp [MAGIC, VERSION_LE, u32le]

theorem check_header_false {f : VFile} (hb : f.bad = none)
    (hv : validHeader f.data = false) :
    check_header f = .ok (false, ⟨f.data, HEADER_SIZE, none⟩) ∨
    check_header f = .ok (false, ⟨f.data, 0, none⟩) := by
  obtain ⟨d, q, b⟩ := f
  simp only at hb hv
  subst hb
  have hshape : check_header (⟨d, q, none⟩ : VFile) =
      (match freadExact (⟨d, 0, none⟩ : VFile) HEADER_SIZE with
        | Except.ok (header, f1) =>
            if header.take 8 = MAGIC then
              Except.ok (decide (u32le (header.drop 8) = 1), f1)
            else Except.ok (false, f1)
        | Except.error VErr.unexpectedEof =>
            Except.ok (false, (⟨d, 0, none⟩ : VFile))
        | Except.error e => Except.error e) := rfl
  rw [hshape]
  by_cases hlen : HEADER_SIZE ≤ d.length
  · left
    rw [freadExact_none_ok (by omega)]
    simp only [List.drop_zero, Nat.zero_add]
    by_cases hm : (d.take HEADER_SIZE).take 8 = MAGIC
    · rw [if_pos hm]
      have hne : u32le ((d.take HEADER_SIZE).drop 8) ≠ 1 := by
        intro h1
        have hlen4 : ((d.take HEADER_SIZE).drop 8).length = 4 := by
          simp only [HEADER_SIZE] at hlen ⊢
          rw [List.length_drop, List.length_take]
          omega
        have := (u32le_eq_one hlen4).mp h1
        have hrec : d.take HEADER_SIZE =
            (d.take HEADER_SIZE).take 8 ++ (d.take HEADER_SIZE).drop 8 :=
          (List.take_append_drop 8 _).symm
        rw [hm, this] at hrec
        simp [validHeader, hrec, VERSION_LE] at hv
      simp [hne]
    · rw [if_neg hm]
  · right
    rw [freadExact_none_eof (by omega) (by norm_num [HEADER_SIZE])]

theorem init_file_none {f : VFile} (hb : f.bad = none) :
    init_file f = .ok ⟨MAGIC ++ VERSION_LE, HEADER_SIZE, none⟩ := by
  obtain ⟨d, q, b⟩ := f
  simp only at hb
  subst hb
  rfl

theorem openIndex_ok_of_valid {d : List Nat} (hv : validHeader d = true)
    (hok : recordsOk d = true) :
    openIndex d none = .ok ⟨vaultsOfDisk d, ⟨d, d.length, none⟩⟩ := by
  have hlen := validHeader_length hv
  rw [openIndex]
  rw [@check_header_true ⟨d, 0, none⟩ rfl hv]
  simp only [Except.bind, bind, Except.instMonad, pure, Except.pure, if_true]
  rw [openScan_ok_aux d.length d HEADER_SIZE []
      (by omega) (by omega) hok]
  simp [vaultsOfDisk, records]

theorem openIndex_reinit {d : List Nat} (hv : validHeader d = false) :
    openIndex d none = .ok ⟨[], ⟨MAGIC ++ VERSION_LE, HEADER_SIZE, none⟩⟩ := by
  have hscan : openScan ⟨MAGIC ++ VERSION_LE, HEADER_SIZE, none⟩ [] =
      .ok ([] ++ decodeAll (slotsOf ((MAGIC ++ VERSION_LE).drop HEADER_SIZE)),
           ⟨MAGIC ++ VERSION_LE, (MAGIC ++ VERSION_LE).length, none⟩) :=
    openScan_ok_aux 0 (MAGIC ++ VERSION_LE) HEADER_SIZE []
      (by simp [MAGIC, VERSION_LE, HEADER_SIZE])
      (by simp [MAGIC, VERSION_LE, HEADER_SIZE])
      (by rw [slotsOf_nil_of_short
                (by simp [MAGIC, VERSION_LE, HEADER_SIZE, RECORD_SIZE])]
          simp)
  rcases @check_header_false ⟨d, 0, none⟩ rfl hv with h | h <;>
  · rw [openIndex, h]
    simp only [Except.bind, bind, Except.instMonad, pure, Except.pure,
      Bool.false_eq_true, if_false]
    rw [init_file_none rfl]
    simp only [Except.bind, bind, Except.instMonad]
    rw [hscan]
    rw [slotsOf_nil_of_short (by simp [MAGIC, VERSION_LE, HEADER_SIZE, RECORD_SIZE])]
    simp [MAGIC, VERSION_LE, HEADER_SIZE, decodeAll_nil]

theorem openIndex_err_of_invalid {d : List Nat} (hv : validHeader d = true)
    (hok : recordsOk d = false) :
    openIndex d none = .error .invalidData := by
  have hlen := validHeader_length hv
  rw [openIndex]
  rw [@check_header_true ⟨d, 0, none⟩ rfl hv]
  simp only [Except.bind, bind, Except.instMonad, pure, Except.pure, if_true]
  rw [openScan_err_aux d.length d HEADER_SIZE [] (by omega) hok]

theorem validHeader_true_iff (d : List Nat) :
    validHeader d = true ↔
      HEADER_SIZE ≤ d.length ∧ d.take 8 = MAGIC ∧ (d.drop 8).take 4 = VERSION_LE := by
  constructor
  · intro hv
    have hlen := validHeader_length hv
    simp only [validHeader, decide_eq_true_eq] at hv
    have key : d.take HEADER_SIZE = d.take 8 ++ (d.drop 8).take 4 := by
      rw [show HEADER_SIZE = 8 + 4 from rfl, List.take_add]
    rw [key] at hv
    have h8 : (d.take 8).length = 8 := by
      rw [List.length_take]
      simp only [HEADER_SIZE] at hlen
      omega
    have hinj := List.append_inj hv (by simp [h8, MAGIC])
    exact ⟨hlen, hinj.1, hinj.2⟩
  · rintro ⟨hlen, h1, h2⟩
    simp only [validHeader, decide_eq_true_eq]
    rw [show HEADER_SIZE = 8 + 4 from rfl, List.take_add, h1, h2]

/-- Inverting a successful fault-free `open`: the resulting state has a valid
header, scan-acceptable records, the in-memory list matching the disk, the
cursor at EOF; and if the opened bytes had a whole records region so does
the resulting file. -/
theorem openIndex_ok_inv {d : List Nat} {st : VaultIndex}
    (h : openIndex d none = .ok st) :
    validHeader st.file.data = true ∧ recordsOk st.file.data = true ∧
    st.vaults = vaultsOfDisk st.file.data ∧ st.file.bad = none ∧
    st.file.pos = st.file.data.length ∧
    (alignedB d = true → alignedB st.file.data = true) := by
  by_cases hv : validHeader d = true
  · by_cases hok : recordsOk d = true
    · rw [openIndex_ok_of_valid hv hok] at h
      cases h
      exact ⟨hv, hok, rfl, rfl, rfl, fun ha => ha⟩
    · rw [openIndex_err_of_invalid hv
        (by simpa using Bool.eq_false_iff.mpr hok)] at h
      cases h
  · rw [openIndex_reinit (by simpa using Bool.eq_false_iff.mpr hv)] at h
    cases h
    have hrec : records (MAGIC ++ VERSION_LE) = [] := by
      have : (MAGIC ++ VERSION_LE).drop HEADER_SIZE = [] := by
        simp [MAGIC, VERSION_LE, HEADER_SIZE]
      rw [records, this, slotsOf_nil_of_short (by simp [RECORD_SIZE])]
    refine ⟨by simp [validHeader, MAGIC, VERSION_LE, HEADER_SIZE],
      by simp [recordsOk, hrec], by simp [vaultsOfDisk, hrec, decodeAll_nil],
      rfl, by simp [MAGIC, VERSION_LE, HEADER_SIZE],
      fun _ => by simp [alignedB, MAGIC, VERSION_LE, HEADER_SIZE, RECORD_SIZE]⟩

/-! ## Characterizing `fwrite` and `addScan` on fault-free files -/

theorem fwrite_none (d : List Nat) (p : Nat) (bs : List Nat) :
    fwrite ⟨d, p, none⟩ bs =
      .ok ⟨d.take p ++ List.replicate (p - d.length) 0 ++ bs
            ++ d.drop (p + bs.length), p + bs.length, none⟩ := by
  rw [fwrite]
  simp [badIn_none]

theorem fwrite_none_inb {d : List Nat} {p : Nat} (bs : List Nat)
    (h : p ≤ d.length) :
    fwrite ⟨d, p, none⟩ bs =
      .ok ⟨d.take p ++ bs ++ d.drop (p + bs.length), p + bs.length, none⟩ := by
  rw [fwrite_none, Nat.sub_eq_zero_of_le h]
  simp

theorem fwrite_none_append {d : List Nat} (bs : List Nat) :
    fwrite ⟨d, d.length, none⟩ bs =
      .ok ⟨d ++ bs, d.length + bs.length, none⟩ := by
  rw [fwrite_none_inb bs (Nat.le_refl _)]
  simp [List.drop_eq_nil_of_le]

theorem addScan_none_aux :
    ∀ (n : Nat) (d : List Nat) (p i : Nat), d.length - p ≤ n →
      ∃ q, addScan ⟨d, p, none⟩ i =
        .ok (firstEmptySlotAux (d.drop p) i, ⟨d, q, none⟩) := by
  have h16 : RECORD_SIZE = 16 := rfl
  intro n
  induction n with
  | zero =>
    intro d p i hn
    refine ⟨p, ?_⟩
    rw [addScan]
    simp only [badIn_none, Bool.false_eq_true, if_false]
    rw [dif_pos (by omega)]
    rw [firstEmptySlotAux, dif_pos (by simp; omega)]
  | succ n ih =>
    intro d p i hn
    by_cases hlt : d.length - p < RECORD_SIZE
    · refine ⟨p, ?_⟩
      rw [addScan]
      simp only [badIn_none, Bool.false_eq_true, if_false]
      rw [dif_pos hlt]
      rw [firstEmptySlotAux, dif_pos (by simpa using hlt)]
    · rw [addScan]
      simp only [badIn_none, Bool.false_eq_true, if_false]
      rw [dif_neg hlt]
      rw [firstEmptySlotAux, dif_neg (by simpa using hlt)]
      by_cases hbz : ((d.drop p).take RECORD_SIZE).all (· == 0)
      · refine ⟨p + RECORD_SIZE, ?_⟩
        simp only [hbz, if_true]
        rw [if_pos (by simpa [slotEmpty] using hbz)]
      · obtain ⟨q, hq⟩ := ih d (p + RECORD_SIZE) (i + 1) (by omega)
        refine ⟨q, ?_⟩
        simp only [hbz, Bool.false_eq_true, if_false]
        rw [if_neg (by simpa [slotEmpty] using hbz)]
        rw [hq, drop_drop_record]

/-! ## Structure of the chunked record view -/

theorem slotsOf_length :
    ∀ (n : Nat) (r : List Nat), r.length ≤ n →
      (slotsOf r).length = r.length / RECORD_SIZE := by
  have h16 : RECORD_SIZE = 16 := rfl
  intro n
  induction n with
  | zero =>
    intro r hn
    rw [slotsOf_nil_of_short (by omega)]
    have hz : r.length = 0 := by omega
    simp [hz]
  | succ n ih =>
    intro r hn
    by_cases hlt : r.length < RECORD_SIZE
    · rw [slotsOf_nil_of_short hlt]
      simp only [List.length_nil]
      simp only [RECORD_SIZE] at hlt ⊢
      omega
    · rw [slotsOf_cons_of_long hlt]
      have hdrop : (r.drop RECORD_SIZE).length = r.length - RECORD_SIZE := by
        simp
      rw [List.length_cons, ih (r.drop RECORD_SIZE) (by simp; omega), hdrop]
      simp only [RECORD_SIZE] at hlt ⊢
      omega

theorem firstEmptySlotAux_some :
    ∀ (n : Nat) (r : List Nat) (i j : Nat), r.length ≤ n →
      firstEmptySlotAux r i = some j →
      i ≤ j ∧ RECORD_SIZE * (j - i) + RECORD_SIZE ≤ r.length ∧
      slotEmpty ((r.drop (RECORD_SIZE * (j - i))).take RECORD_SIZE) = true := by
  have h16 : RECORD_SIZE = 16 := rfl
  intro n
  induction n with
  | zero =>
    intro r i j hn hf
    rw [firstEmptySlotAux, dif_pos (by omega)] at hf
    cases hf
  | succ n ih =>
    intro r i j hn hf
    by_cases hlt : r.length < RECORD_SIZE
    · rw [firstEmptySlotAux, dif_pos hlt] at hf
      cases hf
    · rw [firstEmptySlotAux, dif_neg hlt] at hf
      by_cases hbz : slotEmpty (r.take RECORD_SIZE)
      · rw [if_pos hbz] at hf
        cases hf
        refine ⟨Nat.le_refl _, by simp only [Nat.sub_self, Nat.mul_zero, Nat.zero_add]; omega, ?_⟩
        simpa [Nat.sub_self] using hbz
      · rw [if_neg hbz] at hf
        obtain ⟨hij, hlen, hsl⟩ := ih (r.drop RECORD_SIZE) (i + 1) j (by simp; omega) hf
        have hd : (r.drop RECORD_SIZE).length = r.length - RECORD_SIZE := by simp
        rw [hd] at hlen
        have harith : RECORD_SIZE + RECORD_SIZE * (j - (i + 1)) =
            RECORD_SIZE * (j - i) := by
          have hij' : j - i = (j - (i + 1)) + 1 := by omega
          rw [hij', Nat.mul_add, Nat.mul_one, Nat.add_comm]
        refine ⟨by omega, by simp only [RECORD_SIZE] at hlen ⊢; omega, ?_⟩
        rw [List.drop_drop] at hsl
        rwa [harith] at hsl

theorem firstEmptySlotAux_none_iff :
    ∀ (n : Nat) (r : List Nat) (i : Nat), r.length ≤ n →
      (firstEmptySlotAux r i = none ↔
        (slotsOf r).all (fun c => ! slotEmpty c) = true) := by
  have h16 : RECORD_SIZE = 16 := rfl
  intro n
  induction n with
  | zero =>
    intro r i hn
    rw [firstEmptySlotAux, dif_pos (by omega),
      slotsOf_nil_of_short (by omega)]
    simp
  | succ n ih =>
    intro r i hn
    by_cases hlt : r.length < RECORD_SIZE
    · rw [firstEmptySlotAux, dif_pos hlt, slotsOf_nil_of_short hlt]
      simp
    · rw [firstEmptySlotAux, dif_neg hlt, slotsOf_cons_of_long hlt]
      by_cases hbz : slotEmpty (r.take RECORD_SIZE)
      · simp [hbz]
      · rw [if_neg hbz]
        rw [ih (r.drop RECORD_SIZE) (i + 1) (by simp; omega)]
        simp [hbz]

theorem slotsOf_nil : slotsOf [] = [] :=
  slotsOf_nil_of_short (by simp [RECORD_SIZE])

theorem slotsOf_append :
    ∀ (n : Nat) (r s : List Nat), r.length ≤ n →
      r.length % RECORD_SIZE = 0 →
      slotsOf (r ++ s) = slotsOf r ++ slotsOf s := by
  have h16 : RECORD_SIZE = 16 := rfl
  intro n
  induction n with
  | zero =>
    intro r s hn hm
    have hr : r = [] := List.length_eq_zero.mp (by omega)
    subst hr
    rw [List.nil_append, slotsOf_nil, List.nil_append]
  | succ n ih =>
    intro r s hn hm
    by_cases hlt : r.length < RECORD_SIZE
    · have hr : r = [] := List.length_eq_zero.mp
        (by simp only [RECORD_SIZE] at hlt hm; omega)
      subst hr
      rw [List.nil_append, slotsOf_nil, List.nil_append]
    · rw [slotsOf_cons_of_long hlt,
        slotsOf_cons_of_long (by simp; omega)]
      rw [List.take_append_of_le_length (by omega),
        List.drop_append_of_le_length (by omega)]
      rw [ih (r.drop RECORD_SIZE) s (by simp; omega)
        (by simp only [List.length_drop, RECORD_SIZE] at hm hlt ⊢; omega)]
      simp

theorem slotsOf_set :
    ∀ (j : Nat) (r c : List Nat), c.length = RECORD_SIZE →
      RECORD_SIZE * j + RECORD_SIZE ≤ r.length →
      slotsOf (r.take (RECORD_SIZE * j) ++ c
               ++ r.drop (RECORD_SIZE * j + RECORD_SIZE)) =
        (slotsOf r).set j c := by
  have h16 : RECORD_SIZE = 16 := rfl
  intro j
  induction j with
  | zero =>
    intro r c hc hlen
    rw [Nat.mul_zero, List.take_zero, Nat.zero_add, List.nil_append]
    have htc : c.take RECORD_SIZE = c := by
      rw [← hc]
      exact List.take_length c
    have hdc : c.drop RECORD_SIZE = [] := by
      rw [← hc]
      simp
    have hrhs : (slotsOf r).set 0 c = c :: slotsOf (r.drop RECORD_SIZE) := by
      rw [slotsOf_cons_of_long (by omega)]
      rfl
    rw [hrhs]
    rw [slotsOf_cons_of_long (by simp [hc])]
    rw [List.take_append_of_le_length (by omega),
      List.drop_append_of_le_length (by omega)]
    rw [htc, hdc, List.nil_append]
  | succ j ih =>
    intro r c hc hlen
    have hr16 : ¬ r.length < RECORD_SIZE := by
      simp only [RECORD_SIZE] at hlen ⊢
      omega
    have hlhs : r.take (RECORD_SIZE * (j + 1)) ++ c
          ++ r.drop (RECORD_SIZE * (j + 1) + RECORD_SIZE) =
        r.take RECORD_SIZE ++ ((r.drop RECORD_SIZE).take (RECORD_SIZE * j) ++ c
          ++ (r.drop RECORD_SIZE).drop (RECORD_SIZE * j + RECORD_SIZE)) := by
      rw [List.drop_drop]
      have h1 : RECORD_SIZE * (j + 1) = RECORD_SIZE + RECORD_SIZE * j := by ring
      rw [h1, List.take_add]
      have h2 : RECORD_SIZE + (RECORD_SIZE * j + RECORD_SIZE) =
          RECORD_SIZE + RECORD_SIZE * j + RECORD_SIZE := by ring
      rw [h2]
      simp [List.append_assoc]
    rw [hlhs]
    rw [slotsOf_cons_of_long
      (by simp only [List.length_append, List.length_take, RECORD_SIZE] at *
          omega)]
    rw [List.take_append_of_le_length
        (by simp only [List.length_take, RECORD_SIZE] at *; omega),
      List.drop_append_of_le_length
        (by simp only [List.length_take, RECORD_SIZE] at *; omega)]
    rw [List.take_take, Nat.min_self]
    have hdrop : (r.take RECORD_SIZE).drop RECORD_SIZE = [] := by
      simp
    rw [hdrop, List.nil_append]
    rw [ih (r.drop RECORD_SIZE) c hc
      (by simp only [List.length_drop, RECORD_SIZE] at *; omega)]
    rw [slotsOf_cons_of_long hr16]
    simp

/-! ## Characterizing `removeScan` on fault-free files -/

theorem removeScan_eq_aux :
    ∀ (n : Nat) (d : List Nat) (p i : Nat) (name : List Nat),
      d.length - p ≤ n →
      (match findRecAux name (d.drop p) i with
       | .error e => removeScan name ⟨d, p, none⟩ i = .error e
       | .ok (some j) =>
           ∃ q, removeScan name ⟨d, p, none⟩ i = .ok (true, j, ⟨d, q, none⟩)
       | .ok none =>
           ∃ j q, removeScan name ⟨d, p, none⟩ i = .ok (false, j, ⟨d, q, none⟩)) := by
  have h16 : RECORD_SIZE = 16 := rfl
  intro n
  induction n with
  | zero =>
    intro d p i name hn
    rw [findRecAux, dif_pos (by simp; omega)]
    refine ⟨i, p, ?_⟩
    rw [removeScan]
    simp only [badIn_none, Bool.false_eq_true, if_false]
    rw [dif_pos (by omega)]
  | succ n ih =>
    intro d p i name hn
    by_cases hlt : d.length - p < RECORD_SIZE
    · rw [findRecAux, dif_pos (by simpa using hlt)]
      refine ⟨i, p, ?_⟩
      rw [removeScan]
      simp only [badIn_none, Bool.false_eq_true, if_false]
      rw [dif_pos hlt]
    · rw [findRecAux, dif_neg (by simpa using hlt)]
      have hbuf : (d.drop p).take RECORD_SIZE = (d.drop p).take RECORD_SIZE := rfl
      by_cases hbz : slotEmpty ((d.drop p).take RECORD_SIZE)
      · rw [if_pos hbz, drop_drop_record]
        have hrec := ih d (p + RECORD_SIZE) (i + 1) name (by omega)
        have hstep : removeScan name ⟨d, p, none⟩ i =
            removeScan name ⟨d, p + RECORD_SIZE, none⟩ (i + 1) := by
          rw [removeScan]
          simp only [badIn_none, Bool.false_eq_true, if_false]
          rw [dif_neg hlt]
          rw [if_pos (by simpa [slotEmpty] using hbz)]
        rw [hstep]
        exact hrec
      · rw [if_neg hbz]
        by_cases hval : utf8Valid (decodeSlot ((d.drop p).take RECORD_SIZE))
        · rw [if_pos hval]
          by_cases heq : decodeSlot ((d.drop p).take RECORD_SIZE) = name
          · rw [if_pos heq]
            refine ⟨p + RECORD_SIZE, ?_⟩
            rw [removeScan]
            simp only [badIn_none, Bool.false_eq_true, if_false]
            rw [dif_neg hlt]
            rw [if_neg (by simpa [slotEmpty] using hbz)]
            simp only [decodeSlot] at hval heq
            rw [if_pos hval, if_pos heq]
          · rw [if_neg heq, drop_drop_record]
            have hrec := ih d (p + RECORD_SIZE) (i + 1) name (by omega)
            have hstep : removeScan name ⟨d, p, none⟩ i =
                removeScan name ⟨d, p + RECORD_SIZE, none⟩ (i + 1) := by
              rw [removeScan]
              simp only [badIn_none, Bool.false_eq_true, if_false]
              rw [dif_neg hlt]
              rw [if_neg (by simpa [slotEmpty] using hbz)]
              simp only [decodeSlot] at hval heq
              rw [if_pos hval, if_neg heq]
            rw [hstep]
            exact hrec
        · rw [if_neg hval]
          rw [removeScan]
          simp only [badIn_none, Bool.false_eq_true, if_false]
          rw [dif_neg hlt]
          rw [if_neg (by simpa [slotEmpty] using hbz)]
          simp only [decodeSlot] at hval
          rw [if_neg hval]

theorem findRecAux_some :
    ∀ (n : Nat) (r : List Nat) (i j : Nat) (name : List Nat), r.length ≤ n →
      findRecAux name r i = .ok (some j) →
      i ≤ j ∧ RECORD_SIZE * (j - i) + RECORD_SIZE ≤ r.length := by
  have h16 : RECORD_SIZE = 16 := rfl
  intro n
  induction n with
  | zero =>
    intro r i j name hn hf
    rw [findRecAux, dif_pos (by omega)] at hf
    cases hf
  | succ n ih =>
    intro r i j name hn hf
    by_cases hlt : r.length < RECORD_SIZE
    · rw [findRecAux, dif_pos hlt] at hf
      cases hf
    · rw [findRecAux, dif_neg hlt] at hf
      by_cases hbz : slotEmpty (r.take RECORD_SIZE)
      · rw [if_pos hbz] at hf
        obtain ⟨hij, hlen⟩ := ih (r.drop RECORD_SIZE) (i + 1) j name (by simp; omega) hf
        simp only [List.length_drop] at hlen
        refine ⟨by omega, by simp only [RECORD_SIZE] at hlen ⊢; omega⟩
      · rw [if_neg hbz] at hf
        by_cases hval : utf8Valid (decodeSlot (r.take RECORD_SIZE))
        · rw [if_pos hval] at hf
          by_cases heq : decodeSlot (r.take RECORD_SIZE) = name
          · rw [if_pos heq] at hf
            cases hf
            refine ⟨Nat.le_refl _, ?_⟩
            simp only [Nat.sub_self, Nat.mul_zero, Nat.zero_add]
            omega
          · rw [if_neg heq] at hf
            obtain ⟨hij, hlen⟩ := ih (r.drop RECORD_SIZE) (i + 1) j name (by simp; omega) hf
            simp only [List.length_drop] at hlen
            refine ⟨by omega, by simp only [RECORD_SIZE] at hlen ⊢; omega⟩
        · rw [if_neg hval] at hf
          cases hf

theorem findRecAux_ok_of_recordsOk :
    ∀ (n : Nat) (r : List Nat) (i : Nat) (name : List Nat), r.length ≤ n →
      (slotsOf r).all slotOk = true →
      ∃ o, findRecAux name r i = .ok o := by
  have h16 : RECORD_SIZE = 16 := rfl
  intro n
  induction n with
  | zero =>
    intro r i name hn hok
    exact ⟨none, by rw [findRecAux, dif_pos (by omega)]⟩
  | succ n ih =>
    intro r i name hn hok
    by_cases hlt : r.length < RECORD_SIZE
    · exact ⟨none, by rw [findRecAux, dif_pos hlt]⟩
    · rw [slotsOf_cons_of_long hlt] at hok
      simp only [List.all_cons, Bool.and_eq_true] at hok
      obtain ⟨hok1, hok2⟩ := hok
      by_cases hbz : slotEmpty (r.take RECORD_SIZE)
      · obtain ⟨o, ho⟩ := ih (r.drop RECORD_SIZE) (i + 1) name (by simp; omega) hok2
        exact ⟨o, by rw [findRecAux, dif_neg hlt, if_pos hbz]; exact ho⟩
      · have hval : utf8Valid (decodeSlot (r.take RECORD_SIZE)) = true := by
          rcases Bool.or_eq_true_iff.mp hok1 with h | h
          · exact absurd h (by simpa using hbz)
          · exact h
        by_cases heq : decodeSlot (r.take RECORD_SIZE) = name
        · exact ⟨some i, by
            rw [findRecAux, dif_neg hlt, if_neg hbz, if_pos hval, if_pos heq]⟩
        · obtain ⟨o, ho⟩ := ih (r.drop RECORD_SIZE) (i + 1) name (by simp; omega) hok2
          exact ⟨o, by
            rw [findRecAux, dif_neg hlt, if_neg hbz, if_pos hval, if_neg heq]
            exact ho⟩

/-! ## The written record and its decoding -/

theorem padRecord_length {name : List Nat} (h : name.length ≤ RECORD_SIZE) :
    (padRecord name).length = RECORD_SIZE := by
  simp [padRecord]
  omega

theorem findIdx_zero_pad {name : List Nat} (k : Nat)
    (hz : name.any (· == 0) = false) :
    (name ++ List.replicate k 0).findIdx (· == 0) = name.length := by
  induction name with
  | nil =>
    cases k with
    | zero => simp
    | succ m => simp [List.replicate_succ, List.findIdx_cons]
  | cons a t ih =>
    simp only [List.any_cons, Bool.or_eq_false_iff] at hz
    simp only [List.cons_append, List.findIdx_cons, hz.1, List.length_cons]
    rw [ih hz.2]
    rfl

theorem decodeSlot_padRecord {name : List Nat}
    (hz : name.any (· == 0) = false) :
    decodeSlot (padRecord name) = name := by
  rw [decodeSlot, padRecord, findIdx_zero_pad _ hz]
  exact List.take_left name _

theorem slotEmpty_padRecord {name : List Nat} (hne : name ≠ [])
    (hz : name.any (· == 0) = false) :
    slotEmpty (padRecord name) = false := by
  rcases name with _ | ⟨a, t⟩
  · exact absurd rfl hne
  · simp only [List.any_cons, Bool.or_eq_false_iff] at hz
    simp [slotEmpty, padRecord, List.all_cons, hz.1]

theorem slotOk_padRecord {name : List Nat}
    (hz : name.any (· == 0) = false) (hu : utf8Valid name = true) :
    slotOk (padRecord name) = true := by
  simp [slotOk, decodeSlot_padRecord hz, hu]

theorem slotsOf_single {c : List Nat} (hc : c.length = RECORD_SIZE) :
    slotsOf c = [c] := by
  rw [slotsOf_cons_of_long (by omega)]
  have htc : c.take RECORD_SIZE = c := by
    rw [← hc]
    exact List.take_length c
  have hdc : c.drop RECORD_SIZE = [] := by
    rw [← hc]
    simp
  rw [htc, hdc, slotsOf_nil]

theorem mem_decodeAll {c : List Nat} {cs : List (List Nat)} (hc : c ∈ cs)
    (hne : slotEmpty c = false) : decodeSlot c ∈ decodeAll cs := by
  rw [decodeAll]
  exact List.mem_map_of_mem decodeSlot (List.mem_filter.mpr ⟨hc, by simp [hne]⟩)

theorem mem_set_self {α : Type} {l : List α} {j : Nat} {a : α}
    (hj : j < l.length) : a ∈ l.set j a := by
  have hj' : j < (l.set j a).length := by simpa using hj
  have hmem := List.getElem_mem hj'
  rwa [List.getElem_set_self hj'] at hmem

/-! ## The effect of a successful `add` on the file -/

/-- The bytes of the index file after `add` writes the record of `name`: into the
first all-zero slot if one exists, else appended at EOF. -/
def addResultData (d name : List Nat) : List Nat :=
  match firstEmptySlot d with
  | some j => setChunk d j (padRecord name)
  | none => d ++ padRecord name

theorem addOp_write {st : VaultIndex} {name : List Nat}
    (hb : st.file.bad = none) (h1 : name ≠ []) (h2 : name.length ≤ RECORD_SIZE)
    (h3 : name.any (· == 0) = false) (h4 : name ∉ st.vaults) :
    addOp st name = (.ok (), ⟨st.vaults ++ [name],
      ⟨addResultData st.file.data name,
       (addResultData st.file.data name).length, none⟩⟩) := by
  have h16 : RECORD_SIZE = 16 := rfl
  have h12 : HEADER_SIZE = 12 := rfl
  obtain ⟨vs, d, q, b⟩ := st
  subst hb
  rw [addOp]
  dsimp only
  rw [if_neg h1, if_neg (by omega), if_neg (by simp [h3]), if_neg h4]
  obtain ⟨q', hscan⟩ := addScan_none_aux d.length d HEADER_SIZE 0 (by omega)
  rw [hscan]
  rw [show firstEmptySlotAux (d.drop HEADER_SIZE) 0 = firstEmptySlot d from rfl]
  rcases hfe : firstEmptySlot d with _ | j
  · dsimp only
    rw [fwrite_none_append]
    dsimp only
    simp only [addResultData, hfe]
    rw [padRecord]
  · dsimp only
    obtain ⟨_, hjlen, _⟩ := firstEmptySlotAux_some (d.drop HEADER_SIZE).length
      (d.drop HEADER_SIZE) 0 j (Nat.le_refl _) hfe
    simp only [Nat.sub_zero, List.length_drop] at hjlen
    have hinb : calculate_offset_for_slot j ≤ d.length := by
      simp only [calculate_offset_for_slot, HEADER_SIZE, RECORD_SIZE] at *
      omega
    rw [show (⟨d, calculate_offset_for_slot j, none⟩ : VFile) =
        ⟨d, HEADER_SIZE + j * RECORD_SIZE, none⟩ from rfl]
    rw [fwrite_none_inb _ (by simpa [calculate_offset_for_slot] using hinb)]
    simp only [addResultData, hfe, setChunk]
    have hplen : (name ++ List.replicate (RECORD_SIZE - name.length) 0).length
        = RECORD_SIZE := padRecord_length h2
    have hco : HEADER_SIZE + j * RECORD_SIZE = HEADER_SIZE + RECORD_SIZE * j := by
      ring
    rw [padRecord, hplen, hco]

/-! ## How writes transform the record view -/

theorem records_setChunk {d : List Nat} {j : Nat} {c : List Nat}
    (hc : c.length = RECORD_SIZE)
    (hj : HEADER_SIZE + RECORD_SIZE * j + RECORD_SIZE ≤ d.length) :
    records (setChunk d j c) = (records d).set j c := by
  have h16 : RECORD_SIZE = 16 := rfl
  have h12 : HEADER_SIZE = 12 := rfl
  rw [records, records, setChunk, List.append_assoc]
  rw [List.drop_append_of_le_length
    (by rw [List.length_take]; omega)]
  rw [List.drop_take]
  have ha : HEADER_SIZE + RECORD_SIZE * j - HEADER_SIZE = RECORD_SIZE * j := by
    omega
  rw [ha]
  have hb : d.drop (HEADER_SIZE + RECORD_SIZE * j + RECORD_SIZE) =
      (d.drop HEADER_SIZE).drop (RECORD_SIZE * j + RECORD_SIZE) := by
    rw [List.drop_drop, Nat.add_assoc]
  rw [hb, ← List.append_assoc]
  exact slotsOf_set j (d.drop HEADER_SIZE) c hc
    (by simp only [List.length_drop, RECORD_SIZE, HEADER_SIZE] at hj ⊢; omega)

theorem setChunk_length {d : List Nat} {j : Nat} {c : List Nat}
    (hc : c.length = RECORD_SIZE)
    (hj : HEADER_SIZE + RECORD_SIZE * j + RECORD_SIZE ≤ d.length) :
    (setChunk d j c).length = d.length := by
  simp only [setChunk, List.length_append, List.length_take, List.length_drop, hc]
  simp only [HEADER_SIZE, RECORD_SIZE] at *
  omega

theorem setChunk_take_header {d : List Nat} {j : Nat} {c : List Nat}
    (hj : HEADER_SIZE + RECORD_SIZE * j ≤ d.length) :
    (setChunk d j c).take HEADER_SIZE = d.take HEADER_SIZE := by
  rw [setChunk, List.append_assoc]
  rw [List.take_append_of_le_length (by rw [List.length_take]; omega)]
  rw [List.take_take, Nat.min_eq_left (by omega)]

theorem records_append {d : List Nat} {c : List Nat}
    (ha : alignedB d = true) (hc : c.length = RECORD_SIZE) :
    records (d ++ c) = records d ++ [c] := by
  simp only [alignedB, decide_eq_true_eq] at ha
  rw [records, records]
  rw [List.drop_append_of_le_length (by omega)]
  rw [slotsOf_append (d.drop HEADER_SIZE).length (d.drop HEADER_SIZE) c
    (Nat.le_refl _)
    (by simp only [List.length_drop, RECORD_SIZE, HEADER_SIZE] at ha ⊢; omega)]
  rw [slotsOf_single hc]

theorem all_set {cs : List (List Nat)} {j : Nat} {c : List Nat}
    {p : List Nat → Bool} (hall : cs.all p = true) (hc : p c = true) :
    (cs.set j c).all p = true := by
  rw [List.all_eq_true] at hall ⊢
  intro x hx
  rcases List.mem_or_eq_of_mem_set hx with h | h
  · exact hall x h
  · rw [h]
    exact hc

/-! ## Characterizing `removeOp` -/

theorem removeOp_absent {st : VaultIndex} {name : List Nat}
    (h : name ∉ st.vaults) : removeOp st name = (.ok false, st) := by
  rw [removeOp, if_pos h]

theorem removeOp_scan_not_found {st : VaultIndex} {name : List Nat}
    {i : Nat} {f1 : VFile} (hmem : name ∈ st.vaults)
    (hscan : removeScan name ⟨st.file.data, HEADER_SIZE, st.file.bad⟩ 0 =
      .ok (false, i, f1)) :
    removeOp st name = (.ok true, ⟨st.vaults.erase name, f1⟩) := by
  obtain ⟨vs, d, q, b⟩ := st
  rw [removeOp, if_neg (by simpa using hmem)]
  dsimp only
  dsimp only at hscan
  rw [hscan]
  dsimp only
  rw [if_pos (by simp)]

theorem removeOp_present {st : VaultIndex} {name : List Nat}
    (hb : st.file.bad = none) (hmem : name ∈ st.vaults) :
    (∀ e, findRecAux name (st.file.data.drop HEADER_SIZE) 0 = .error e →
        removeOp st name =
          (.error e, ⟨st.vaults, ⟨st.file.data, HEADER_SIZE, none⟩⟩)) ∧
    (findRecAux name (st.file.data.drop HEADER_SIZE) 0 = .ok none →
        ∃ q, removeOp st name =
          (.ok true, ⟨st.vaults.erase name, ⟨st.file.data, q, none⟩⟩)) ∧
    (∀ j, findRecAux name (st.file.data.drop HEADER_SIZE) 0 = .ok (some j) →
        removeOp st name = (.ok true, ⟨st.vaults.erase name,
          ⟨setChunk st.file.data j (List.replicate RECORD_SIZE 0),
           (setChunk st.file.data j (List.replicate RECORD_SIZE 0)).length,
           none⟩⟩)) := by
  have h16 : RECORD_SIZE = 16 := rfl
  have h12 : HEADER_SIZE = 12 := rfl
  obtain ⟨vs, d, q, b⟩ := st
  subst hb
  have hcore := removeScan_eq_aux d.length d HEADER_SIZE 0 name (by omega)
  refine ⟨?_, ?_, ?_⟩
  · intro e he
    rw [he] at hcore
    rw [removeOp, if_neg (by simpa using hmem)]
    dsimp only
    rw [hcore]
  · intro he
    rw [he] at hcore
    obtain ⟨j, q', hsc⟩ := hcore
    refine ⟨q', ?_⟩
    rw [removeOp, if_neg (by simpa using hmem)]
    dsimp only
    rw [hsc]
    dsimp only
    rw [if_pos (by simp)]
  · intro j he
    rw [he] at hcore
    obtain ⟨q', hsc⟩ := hcore
    obtain ⟨_, hjlen⟩ := findRecAux_some (d.drop HEADER_SIZE).length
      (d.drop HEADER_SIZE) 0 j name (Nat.le_refl _) he
    simp only [Nat.sub_zero, List.length_drop] at hjlen
    rw [removeOp, if_neg (by simpa using hmem)]
    dsimp only
    rw [hsc]
    dsimp only
    rw [if_neg (by simp)]
    have hoff : calculate_offset_for_slot j = HEADER_SIZE + RECORD_SIZE * j := by
      rw [calculate_offset_for_slot]
      ring
    rw [hoff]
    rw [fwrite_none_inb _ (by omega)]
    dsimp only
    have hzl : (List.replicate RECORD_SIZE (0 : Nat)).length = RECORD_SIZE := by
      simp
    rw [setChunk, hzl]

/-! ## Decoded names contain no NUL and fit in a record -/

theorem decodeSlot_not_mem_zero (c : List Nat) : (0 : Nat) ∉ decodeSlot c := by
  rw [decodeSlot]
  intro hmem
  rw [List.mem_iff_getElem] at hmem
  obtain ⟨n, hn, hval⟩ := hmem
  have hn' : n < c.findIdx (· == 0) := by
    rw [List.length_take] at hn
    omega
  have hne := List.not_of_lt_findIdx hn'
  rw [List.getElem_take] at hval
  rw [hval] at hne
  simp at hne

theorem decodeSlot_length_le (c : List Nat) :
    (decodeSlot c).length ≤ c.length := by
  rw [decodeSlot, List.length_take]
  omega

theorem openScan_names :
    ∀ (n : Nat) (f : VFile) (acc l : List (List Nat)) (f' : VFile),
      f.data.length - f.pos ≤ n → openScan f acc = .ok (l, f') →
      ∀ nm ∈ l, nm ∈ acc ∨ (nm.length ≤ RECORD_SIZE ∧ (0 : Nat) ∉ nm) := by
  have h16 : RECORD_SIZE = 16 := rfl
  intro n
  induction n with
  | zero =>
    intro f acc l f' hn hs nm hm
    obtain ⟨d, p, b⟩ := f
    rw [openScan] at hs
    simp only at hs hn
    rw [dif_pos (by omega)] at hs
    split at hs
    · cases hs
    · cases hs
      exact Or.inl hm
  | succ n ih =>
    intro f acc l f' hn hs nm hm
    obtain ⟨d, p, b⟩ := f
    simp only at hn
    by_cases hlt : d.length - p < RECORD_SIZE
    · rw [openScan] at hs
      simp only at hs
      rw [dif_pos hlt] at hs
      split at hs
      · cases hs
      · cases hs
        exact Or.inl hm
    · rw [openScan] at hs
      simp only at hs
      rw [dif_neg hlt] at hs
      split at hs
      · cases hs
      · by_cases hbz : ((d.drop p).take RECORD_SIZE).all (· == 0)
        · rw [if_pos hbz] at hs
          exact ih ⟨d, p + RECORD_SIZE, b⟩ acc l f' (by simp; omega) hs nm hm
        · rw [if_neg hbz] at hs
          by_cases hval : utf8Valid (((d.drop p).take RECORD_SIZE).take
              (((d.drop p).take RECORD_SIZE).findIdx (· == 0)))
          · rw [if_pos hval] at hs
            rcases ih ⟨d, p + RECORD_SIZE, b⟩ _ l f' (by simp; omega) hs nm hm
              with h | h
            · rcases List.mem_append.mp h with h2 | h2
              · exact Or.inl h2
              · rw [List.mem_singleton] at h2
                subst h2
                refine Or.inr ⟨?_, ?_⟩
                · calc (decodeSlot ((d.drop p).take RECORD_SIZE)).length
                      ≤ ((d.drop p).take RECORD_SIZE).length :=
                        decodeSlot_length_le _
                    _ ≤ RECORD_SIZE := by rw [List.length_take]; omega
                · exact decodeSlot_not_mem_zero _
            · exact Or.inr h
          · rw [if_neg hval] at hs
            cases hs

/-! ## `addOp` case analysis -/

theorem addOp_noop {st : VaultIndex} {name : List Nat} (h1 : name ≠ [])
    (h2 : name.length ≤ RECORD_SIZE) (h3 : name.any (· == 0) = false)
    (hmem : name ∈ st.vaults) : addOp st name = (.ok (), st) := by
  rw [addOp, if_neg h1, if_neg (by omega), if_neg (by simp [h3]), if_pos hmem]

theorem addOp_scan_err {st : VaultIndex} {name : List Nat} {e : VErr}
    (h1 : name ≠ []) (h2 : name.length ≤ RECORD_SIZE)
    (h3 : name.any (· == 0) = false) (h4 : name ∉ st.vaults)
    (hscan : addScan ⟨st.file.data, HEADER_SIZE, st.file.bad⟩ 0 = .error e) :
    addOp st name =
      (.error e, ⟨st.vaults, ⟨st.file.data, HEADER_SIZE, st.file.bad⟩⟩) := by
  obtain ⟨vs, d, q, b⟩ := st
  rw [addOp, if_neg h1, if_neg (by omega), if_neg (by simp [h3]),
    if_neg (by simpa using h4)]
  dsimp only
  dsimp only at hscan
  rw [hscan]

theorem addScan_preserves :
    ∀ (n : Nat) (f : VFile) (i : Nat) (o : Option Nat) (f' : VFile),
      f.data.length - f.pos ≤ n → addScan f i = .ok (o, f') →
      f'.data = f.data ∧ f'.bad = f.bad := by
  have h16 : RECORD_SIZE = 16 := rfl
  intro n
  induction n with
  | zero =>
    intro f i o f' hn hs
    obtain ⟨d, p, b⟩ := f
    simp only at hn
    rw [addScan] at hs
    simp only at hs
    split at hs
    · cases hs
    · rw [dif_pos (by omega)] at hs
      cases hs
      exact ⟨rfl, rfl⟩
  | succ n ih =>
    intro f i o f' hn hs
    obtain ⟨d, p, b⟩ := f
    simp only at hn
    rw [addScan] at hs
    simp only at hs
    split at hs
    · cases hs
    · by_cases hlt : d.length - p < RECORD_SIZE
      · rw [dif_pos hlt] at hs
        cases hs
        exact ⟨rfl, rfl⟩
      · rw [dif_neg hlt] at hs
        by_cases hbz : ((d.drop p).take RECORD_SIZE).all (· == 0)
        · rw [if_pos hbz] at hs
          cases hs
          exact ⟨rfl, rfl⟩
        · rw [if_neg hbz] at hs
          exact ih ⟨d, p + RECORD_SIZE, b⟩ (i + 1) o f' (by simp; omega) hs

theorem addOp_shape (st : VaultIndex) (name : List Nat) :
    ((∃ e, (addOp st name).1 = .error e) ∧
      (addOp st name).2.vaults = st.vaults ∧
      (addOp st name).2.file.data = st.file.data ∧
      (addOp st name).2.file.bad = st.file.bad) ∨
    ((addOp st name).1 = .ok () ∧ name ≠ [] ∧ name.length ≤ RECORD_SIZE ∧
      name.any (· == 0) = false ∧
      (((addOp st name).2 = st ∧ name ∈ st.vaults) ∨
       ((addOp st name).2.vaults = st.vaults ++ [name] ∧ name ∉ st.vaults))) := by
  obtain ⟨vs, d, q, b⟩ := st
  by_cases h1 : name = []
  · rw [addOp, if_pos h1]
    exact Or.inl ⟨⟨_, rfl⟩, rfl, rfl, rfl⟩
  · by_cases h2 : RECORD_SIZE < name.length
    · rw [addOp, if_neg h1, if_pos h2]
      exact Or.inl ⟨⟨_, rfl⟩, rfl, rfl, rfl⟩
    · by_cases h3 : name.any (· == 0)
      · rw [addOp, if_neg h1, if_neg h2, if_pos h3]
        exact Or.inl ⟨⟨_, rfl⟩, rfl, rfl, rfl⟩
      · by_cases h4 : name ∈ vs
        · rw [addOp, if_neg h1, if_neg h2, if_neg h3, if_pos h4]
          exact Or.inr ⟨rfl, h1, by omega, Bool.eq_false_iff.mpr h3,
            Or.inl ⟨rfl, h4⟩⟩
        · rw [addOp, if_neg h1, if_neg h2, if_neg h3, if_neg h4]
          dsimp only
          rcases hscan : addScan ⟨d, HEADER_SIZE, b⟩ 0 with e | ⟨o, f1⟩
          · exact Or.inl ⟨⟨e, rfl⟩, rfl, rfl, rfl⟩
          · obtain ⟨hfd, hfb⟩ := addScan_preserves (d.length) ⟨d, HEADER_SIZE, b⟩
              0 o f1 (by simp) hscan
            simp only at hfd hfb
            rcases o with _ | j
            · dsimp only
              rcases hw : fwrite ⟨f1.data, f1.data.length, f1.bad⟩
                  (name ++ List.replicate (RECORD_SIZE - name.length) 0)
                with e | f3
              · exact Or.inl ⟨⟨e, rfl⟩, rfl, by rw [hfd], by rw [hfb]⟩
              · exact Or.inr ⟨rfl, h1, by omega, Bool.eq_false_iff.mpr h3,
                  Or.inr ⟨rfl, h4⟩⟩
            · dsimp only
              rcases hw : fwrite ⟨f1.data, calculate_offset_for_slot j, f1.bad⟩
                  (name ++ List.replicate (RECORD_SIZE - name.length) 0)
                with e | f3
              · exact Or.inl ⟨⟨e, rfl⟩, rfl, by rw [hfd], by rw [hfb]⟩
              · exact Or.inr ⟨rfl, h1, by omega, Bool.eq_false_iff.mpr h3,
                  Or.inr ⟨rfl, h4⟩⟩

/-- The result of `add` and the resulting name list depend only on the in-memory list
and the file's bytes and fault, not on the incoming cursor position. -/
theorem addOp_congr {vs : List (List Nat)} {d : List Nat} {q1 q2 : Nat}
    {b : Option Nat} (name : List Nat) :
    (addOp ⟨vs, d, q1, b⟩ name).1 = (addOp ⟨vs, d, q2, b⟩ name).1 ∧
    (addOp ⟨vs, d, q1, b⟩ name).2.vaults = (addOp ⟨vs, d, q2, b⟩ name).2.vaults := by
  by_cases h1 : name = []
  · rw [addOp, addOp, if_pos h1, if_pos h1]
    exact ⟨rfl, rfl⟩
  · by_cases h2 : RECORD_SIZE < name.length
    · rw [addOp, addOp, if_neg h1, if_pos h2, if_neg h1, if_pos h2]
      exact ⟨rfl, rfl⟩
    · by_cases h3 : name.any (· == 0)
      · rw [addOp, addOp, if_neg h1, if_neg h2, if_pos h3,
          if_neg h1, if_neg h2, if_pos h3]
        exact ⟨rfl, rfl⟩
      · by_cases h4 : name ∈ vs
        · rw [addOp, addOp, if_neg h1, if_neg h2, if_neg h3, if_pos h4,
            if_neg h1, if_neg h2, if_neg h3, if_pos h4]
          exact ⟨rfl, rfl⟩
        · rw [addOp, addOp, if_neg h1, if_neg h2, if_neg h3, if_neg h4,
            if_neg h1, if_neg h2, if_neg h3, if_neg h4]
          dsimp only
          rcases hscan : addScan ⟨d, HEADER_SIZE, b⟩ 0 with e | ⟨o, f1⟩
          · exact ⟨rfl, rfl⟩
          · rcases o with _ | j
            · dsimp only
              rcases hw : fwrite ⟨f1.data, f1.data.length, f1.bad⟩
                  (name ++ List.replicate (RECORD_SIZE - name.length) 0)
                with e | f3
              · exact ⟨rfl, rfl⟩
              · exact ⟨rfl, rfl⟩
            · dsimp only
              rcases hw : fwrite ⟨f1.data, calculate_offset_for_slot j, f1.bad⟩
                  (name ++ List.replicate (RECORD_SIZE - name.length) 0)
                with e | f3
              · exact ⟨rfl, rfl⟩
              · exact ⟨rfl, rfl⟩

/-! ## Fault propagation through `open` -/

theorem check_header_ok_bad {f : VFile}
    (hb : badIn f.bad 0 HEADER_SIZE = false) (hv : validHeader f.data = true) :
    check_header f = .ok (true, ⟨f.data, HEADER_SIZE, f.bad⟩) := by
  obtain ⟨d, q, b⟩ := f
  simp only at hb hv
  have hlen := validHeader_length hv
  simp only [validHeader, decide_eq_true_eq] at hv
  have hread : freadExact ⟨d, 0, b⟩ HEADER_SIZE =
      .ok ((d.drop 0).take HEADER_SIZE, ⟨d, 0 + HEADER_SIZE, b⟩) := by
    rw [freadExact]
    have hmin : min HEADER_SIZE (d.length - 0) = HEADER_SIZE := by omega
    rw [hmin, hb]
    simp only [Bool.false_eq_true, if_false]
    rw [if_neg (by omega)]
  simp only [List.drop_zero, Nat.zero_add] at hread
  show (match freadExact (⟨d, 0, b⟩ : VFile) HEADER_SIZE with
    | Except.ok (header, f1) =>
        if header.take 8 = MAGIC then
          Except.ok (decide (u32le (header.drop 8) = 1), f1)
        else Except.ok (false, f1)
    | Except.error VErr.unexpectedEof =>
        Except.ok (false, (⟨d, 0, b⟩ : VFile))
    | Except.error e => Except.error e)
      = Except.ok (true, (⟨d, HEADER_SIZE, b⟩ : VFile))
  rw [hread]
  simp only [hv]
  rw [if_pos (by simp [MAGIC, VERSION_LE])]
  simp [MAGIC, VERSION_LE, u32le]

theorem check_header_fault {d : List Nat} {b : Nat}
    (hlen : HEADER_SIZE ≤ d.length) (hb : b < HEADER_SIZE) :
    check_header ⟨d, 0, some b⟩ = .error .ioError := by
  have hread : freadExact ⟨d, 0, some b⟩ HEADER_SIZE = .error .ioError := by
    rw [freadExact]
    rw [if_pos (by rw [badIn]; simp; omega)]
  show (match freadExact (⟨d, 0, some b⟩ : VFile) HEADER_SIZE with
    | Except.ok (header, f1) =>
        if header.take 8 = MAGIC then
          Except.ok (decide (u32le (header.drop 8) = 1), f1)
        else Except.ok (false, f1)
    | Except.error VErr.unexpectedEof =>
        Except.ok (false, (⟨d, 0, some b⟩ : VFile))
    | Except.error e => Except.error e) = Except.error VErr.ioError
  rw [hread]

theorem openScan_fault :
    ∀ (n : Nat) (d : List Nat) (p b : Nat) (acc : List (List Nat)),
      d.length - p ≤ n → p ≤ b → b < d.length →
      (slotsOf (d.drop p)).all slotOk = true →
      openScan ⟨d, p, some b⟩ acc = .error .ioError := by
  have h16 : RECORD_SIZE = 16 := rfl
  intro n
  induction n with
  | zero =>
    intro d p b acc hn hpb hbd _hok
    rw [openScan]
    rw [if_pos ?_]
    rw [badIn]
    simp only [decide_eq_true_eq]
    omega
  | succ n ih =>
    intro d p b acc hn hpb hbd hok
    by_cases hfault : b < p + min RECORD_SIZE (d.length - p)
    · rw [openScan]
      rw [if_pos (by rw [badIn]; simp only [decide_eq_true_eq]; omega)]
    · have hlt : ¬ d.length - p < RECORD_SIZE := by omega
      rw [openScan]
      simp only
      rw [if_neg (by rw [badIn]; simp only [decide_eq_true_eq]; omega)]
      rw [dif_neg hlt]
      rw [slotsOf_cons_of_long (by simpa using hlt), drop_drop_record] at hok
      simp only [List.all_cons, Bool.and_eq_true] at hok
      obtain ⟨hok1, hok2⟩ := hok
      by_cases hbz : ((d.drop p).take RECORD_SIZE).all (· == 0)
      · rw [if_pos hbz]
        exact ih d (p + RECORD_SIZE) b acc (by omega) (by omega) hbd hok2
      · rw [if_neg hbz]
        have hval : utf8Valid (decodeSlot ((d.drop p).take RECORD_SIZE)) = true := by
          rcases Bool.or_eq_true_iff.mp hok1 with h | h
          · exact absurd h (by simpa [slotEmpty] using hbz)
          · exact h
        simp only [decodeSlot] at hval
        rw [if_pos hval]
        exact ih d (p + RECORD_SIZE) b _ (by omega) (by omega) hbd hok2

theorem openIndex_fault {d : List Nat} {b : Nat} (hv : validHeader d = true)
    (hok : recordsOk d = true) (hb : b < d.length) :
    openIndex d (some b) = .error .ioError := by
  have hlen := validHeader_length hv
  by_cases hb12 : b < HEADER_SIZE
  · rw [openIndex]
    rw [check_header_fault hlen hb12]
    rfl
  · rw [openIndex]
    rw [@check_header_ok_bad ⟨d, 0, some b⟩
      (by rw [badIn]; simp only [decide_eq_false_iff_not]; omega) hv]
    simp only [Except.bind, bind, Except.instMonad, pure, Except.pure, if_true]
    rw [openScan_fault d.length d HEADER_SIZE b [] (by omega) (by omega) hb hok]

/-! ## The claims -/

/-- A freshly initialized index state, as `open` returns it on a new
directory: no names, a bare header on disk. -/
def emptyIndex : VaultIndex :=
  ⟨[], ⟨MAGIC ++ VERSION_LE, HEADER_SIZE, none⟩⟩

/-- C7: an empty name, an over-long name (more than 16 UTF-8 bytes), and a
name containing a NUL byte are each rejected by `add` with a distinct
`InvalidInput` error, checked in that order, before any disk access: the
returned state is exactly the input state, so the in-memory list and the
file are unchanged and the invalid name never enters `vaults()`. -/
theorem spec_C7 (st : VaultIndex) (name : List Nat) :
    (name = [] →
      addOp st name = (.error (.invalidInput "name must be non-empty"), st)) ∧
    (name ≠ [] → RECORD_SIZE < name.length →
      addOp st name =
        (.error (.invalidInput "name byte-length must be <= 16 bytes"), st)) ∧
    (name ≠ [] → name.length ≤ RECORD_SIZE → name.any (· == 0) = true →
      addOp st name =
        (.error (.invalidInput "name cannot contain NUL"), st)) := by
  refine ⟨?_, ?_, ?_⟩
  · intro h
    rw [addOp, if_pos h]
  · intro h1 h2
    rw [addOp, if_neg h1, if_pos h2]
  · intro h1 h2 h3
    rw [addOp, if_neg h1, if_neg (by omega), if_pos h3]

/-- Witness for C7 at concrete inputs: the empty name, a 17-byte name and a
NUL-containing name on a fresh index. -/
theorem spec_C7_witness :
    addOp emptyIndex [] =
      (.error (.invalidInput "name must be non-empty"), emptyIndex) ∧
    addOp emptyIndex (List.replicate 17 97) =
      (.error (.invalidInput "name byte-length must be <= 16 bytes"),
       emptyIndex) ∧
    addOp emptyIndex [118, 0] =
      (.error (.invalidInput "name cannot contain NUL"), emptyIndex) :=
  ⟨(spec_C7 emptyIndex []).1 rfl,
   (spec_C7 emptyIndex (List.replicate 17 97)).2.1 (by decide) (by decide),
   (spec_C7 emptyIndex [118, 0]).2.2 (by decide) (by decide) (by decide)⟩

/-- C9: `add` of a name already in the in-memory set (any valid name — the
three validations run first) is a no-op returning success with the state
untouched, and for any name, calling `add` twice in a row leaves
`vaults().len()` where the first call left it (idempotence). -/
theorem spec_C9 (st : VaultIndex) (name : List Nat) :
    (name ≠ [] → name.length ≤ RECORD_SIZE → name.any (· == 0) = false →
      name ∈ st.vaults → addOp st name = (.ok (), st)) ∧
    (∀ r st', addOp st name = (r, st') →
      ((addOp st' name).2).vaults.length = st'.vaults.length) := by
  constructor
  · exact fun h1 h2 h3 hmem => addOp_noop h1 h2 h3 hmem
  · intro r st' heq
    obtain ⟨vs, d, q, b⟩ := st
    obtain ⟨vs1, d1, q1, b1⟩ := st'
    have hsnd : (addOp ⟨vs, d, q, b⟩ name).2 = ⟨vs1, d1, q1, b1⟩ := by rw [heq]
    rcases addOp_shape ⟨vs, d, q, b⟩ name with ⟨⟨e, _⟩, hvv, hdd, hbb⟩ |
      ⟨_, h1, h2, h3, hcase⟩
    · have hvv0 := hvv
      rw [hsnd] at hvv hdd hbb
      simp only at hvv hdd hbb
      simp only
      rw [hvv, hdd, hbb]
      rw [(@addOp_congr vs d q1 q b name).2, hvv0]
    · rcases hcase with ⟨hnoop, hmem⟩ | ⟨happ, _⟩
      · rw [hnoop] at hsnd
        injection hsnd with hA hB
        injection hB with hB1 hB2 hB3
        subst hA
        subst hB1
        subst hB2
        subst hB3
        simp only
        rw [hnoop]
      · have hvs1 : vs1 = vs ++ [name] := by
          rw [hsnd] at happ
          exact happ
        have hmem' : name ∈ vs1 := by
          rw [hvs1]
          exact List.mem_append.mpr (Or.inr (List.mem_singleton.mpr rfl))
        rw [addOp_noop h1 h2 h3 hmem']

unseal openScan addScan removeScan slotsOf firstEmptySlotAux findRecAux in
/-- Witness for C9: adding `"a"` to a fresh index and then adding it again
keeps one entry; the duplicate add is a no-op. -/
theorem spec_C9_witness :
    addOp ⟨[[97]], ⟨MAGIC ++ VERSION_LE ++ padRecord [97], 28, none⟩⟩ [97] =
      (.ok (), ⟨[[97]], ⟨MAGIC ++ VERSION_LE ++ padRecord [97], 28, none⟩⟩) ∧
    ((addOp ((addOp emptyIndex [97]).2) [97]).2).vaults.length =
      ((addOp emptyIndex [97]).2).vaults.length :=
  ⟨(spec_C9 ⟨[[97]], ⟨MAGIC ++ VERSION_LE ++ padRecord [97], 28, none⟩⟩
      [97]).1 (by decide) (by decide) (by decide) (by decide),
   (spec_C9 emptyIndex [97]).2 (addOp emptyIndex [97]).1
      (addOp emptyIndex [97]).2 rfl⟩

/-- C5: opening a file whose header is invalid in any of the three ways —
shorter than 12 bytes (including empty), wrong magic, or right magic with a
version integer other than 1 — succeeds with an empty registry, the file
truncated and rewritten to exactly the fresh 12-byte header (magic plus
little-endian version 1); no error is surfaced. -/
theorem spec_C5 (d : List Nat)
    (h : d.length < HEADER_SIZE ∨ d.take 8 ≠ MAGIC ∨
         u32le ((d.drop 8).take 4) ≠ 1) :
    openIndex d none =
      .ok ⟨[], ⟨MAGIC ++ VERSION_LE, HEADER_SIZE, none⟩⟩ := by
  apply openIndex_reinit
  rw [Bool.eq_false_iff]
  intro hv
  rw [validHeader_true_iff] at hv
  obtain ⟨hl, hm, hvr⟩ := hv
  rcases h with h | h | h
  · omega
  · exact h hm
  · rw [hvr] at h
    exact h (by decide)

/-- Witness for C5: the empty file, a wrong-magic file and a version-2 file
all reinitialize to the bare header with no names. -/
theorem spec_C5_witness :
    openIndex [] none =
      .ok ⟨[], ⟨MAGIC ++ VERSION_LE, HEADER_SIZE, none⟩⟩ ∧
    openIndex ([73, 78, 86, 65, 76, 73, 68, 33] ++ VERSION_LE) none =
      .ok ⟨[], ⟨MAGIC ++ VERSION_LE, HEADER_SIZE, none⟩⟩ ∧
    openIndex (MAGIC ++ [2, 0, 0, 0]) none =
      .ok ⟨[], ⟨MAGIC ++ VERSION_LE, HEADER_SIZE, none⟩⟩ :=
  ⟨spec_C5 [] (Or.inl (by decide)),
   spec_C5 _ (Or.inr (Or.inl (by decide))),
   spec_C5 _ (Or.inr (Or.inr (by decide)))⟩

/-- State after `add "a"` on a fresh index. -/
def c4st1 : VaultIndex :=
  ⟨[[97]], ⟨MAGIC ++ VERSION_LE ++ padRecord [97], 28, none⟩⟩

/-- State after `add "a"`, `add "b"`. -/
def c4st2 : VaultIndex :=
  ⟨[[97], [98]],
   ⟨MAGIC ++ VERSION_LE ++ padRecord [97] ++ padRecord [98], 44, none⟩⟩

/-- State after `add "a"`, `add "b"`, `remove "a"`: slot 0 zeroed. -/
def c4st3 : VaultIndex :=
  ⟨[[98]],
   ⟨MAGIC ++ VERSION_LE ++ List.replicate 16 0 ++ padRecord [98], 44, none⟩⟩

/-- State after `add "a"`, `add "b"`, `remove "a"`, `add "c"`: `"c"` written
into the slot `"a"` vacated (bytes 12..27), file length unchanged. -/
def c4st4 : VaultIndex :=
  ⟨[[98], [99]],
   ⟨MAGIC ++ VERSION_LE ++ padRecord [99] ++ padRecord [98], 44, none⟩⟩

unseal openScan addScan removeScan slotsOf firstEmptySlotAux findRecAux in
/-- C4: from an empty open registry, `add "a"`, `add "b"`, `remove "a"`,
`add "c"` writes the record of `"c"` into the slot (index 0, file offset 12)
that `"a"` occupied, and `vaults()` is then exactly `{"b", "c"}`; in
general a successful fresh `add` writes into the first all-zero slot
(`firstEmptySlot`), appending at end-of-file only when none exists. -/
theorem spec_C4 :
    (openIndex [] none = .ok emptyIndex ∧
     addOp emptyIndex [97] = (.ok (), c4st1) ∧
     addOp c4st1 [98] = (.ok (), c4st2) ∧
     removeOp c4st2 [97] = (.ok true, c4st3) ∧
     addOp c4st3 [99] = (.ok (), c4st4) ∧
     c4st4.vaults = [[98], [99]] ∧
     c4st2.file.data.take 28 = MAGIC ++ VERSION_LE ++ padRecord [97] ∧
     c4st4.file.data.take 28 = MAGIC ++ VERSION_LE ++ padRecord [99] ∧
     c4st4.file.data.length = c4st2.file.data.length) ∧
    (∀ st name, st.file.bad = none → name ≠ [] →
      name.length ≤ RECORD_SIZE → name.any (· == 0) = false →
      name ∉ st.vaults →
      addOp st name = (.ok (), ⟨st.vaults ++ [name],
        ⟨addResultData st.file.data name,
         (addResultData st.file.data name).length, none⟩⟩)) :=
  ⟨by decide, fun st name hb h1 h2 h3 h4 => addOp_write hb h1 h2 h3 h4⟩

/-- Witness for the general clause of C4 at a concrete input: adding `"b"` to
the one-record index reuses no slot (none is empty) and appends. -/
theorem spec_C4_witness :
    addOp c4st1 [98] = (.ok (), ⟨c4st1.vaults ++ [[98]],
      ⟨addResultData c4st1.file.data [98],
       (addResultData c4st1.file.data [98]).length, none⟩⟩) :=
  spec_C4.2 c4st1 [98] rfl (by decide) (by decide) (by decide) (by decide)

/-- C8: during the scan of `open` over a well-formed file (valid header, whole
records region): a trailing fragment shorter than one record is silently
ignored (and a zero-length read at EOF ends the scan — the `tail = []`
instance); an appended all-zero record is skipped, leaving `vaults()`
unchanged; an appended record with a non-zero byte is decoded by truncating
at its first NUL (full width if none) and appended to `vaults()` when the
prefix is valid UTF-8; and invalid UTF-8 aborts the whole `open` with
`InvalidData`. -/
theorem spec_C8 (d : List Nat) (st : VaultIndex)
    (hopen : openIndex d none = .ok st) (hv : validHeader d = true)
    (ha : alignedB d = true) :
    (∀ tail, tail.length < RECORD_SIZE →
      openIndex (d ++ tail) none =
        .ok ⟨st.vaults, ⟨d ++ tail, (d ++ tail).length, none⟩⟩) ∧
    (openIndex (d ++ List.replicate RECORD_SIZE 0) none =
      .ok ⟨st.vaults, ⟨d ++ List.replicate RECORD_SIZE 0,
        (d ++ List.replicate RECORD_SIZE 0).length, none⟩⟩) ∧
    (∀ c, c.length = RECORD_SIZE → slotEmpty c = false →
      utf8Valid (decodeSlot c) = true →
      openIndex (d ++ c) none =
        .ok ⟨st.vaults ++ [decodeSlot c], ⟨d ++ c, (d ++ c).length, none⟩⟩) ∧
    (∀ c, c.length = RECORD_SIZE → slotEmpty c = false →
      utf8Valid (decodeSlot c) = false →
      openIndex (d ++ c) none = .error .invalidData) := by
  have hlen12 := validHeader_length hv
  have hok : recordsOk d = true := by
    by_cases h : recordsOk d = true
    · exact h
    · rw [openIndex_err_of_invalid hv (Bool.eq_false_iff.mpr h)] at hopen
      cases hopen
  have hstv : st.vaults = vaultsOfDisk d := by
    rw [openIndex_ok_of_valid hv hok] at hopen
    cases hopen
    rfl
  have hvapp : ∀ x : List Nat, validHeader (d ++ x) = true := by
    intro x
    simp only [validHeader, decide_eq_true_eq] at hv ⊢
    rw [List.take_append_of_le_length (by omega)]
    exact hv
  refine ⟨?_, ?_, ?_, ?_⟩
  · intro tail htail
    have hrec : records (d ++ tail) = records d := by
      rw [records, records, List.drop_append_of_le_length (by omega)]
      rw [slotsOf_append (d.drop HEADER_SIZE).length _ tail (Nat.le_refl _) ?_]
      · rw [slotsOf_nil_of_short htail, List.append_nil]
      · simp only [alignedB, decide_eq_true_eq] at ha
        simp only [List.length_drop, HEADER_SIZE, RECORD_SIZE] at ha ⊢
        omega
    have hokt : recordsOk (d ++ tail) = true := by
      rw [recordsOk, hrec]
      exact hok
    rw [openIndex_ok_of_valid (hvapp tail) hokt]
    rw [hstv, vaultsOfDisk, vaultsOfDisk, hrec]
  · have hrec : records (d ++ List.replicate RECORD_SIZE 0) =
        records d ++ [List.replicate RECORD_SIZE 0] :=
      records_append ha (by simp)
    have hokt : recordsOk (d ++ List.replicate RECORD_SIZE 0) = true := by
      rw [recordsOk, hrec, List.all_append]
      refine Bool.and_eq_true_iff.mpr ⟨hok, ?_⟩
      simp [slotOk, slotEmpty]
    rw [openIndex_ok_of_valid (hvapp _) hokt]
    rw [hstv, vaultsOfDisk, vaultsOfDisk, hrec]
    rw [decodeAll, decodeAll, List.filter_append]
    have hz : ([List.replicate RECORD_SIZE (0 : Nat)].filter
        (fun c => ! slotEmpty c)) = [] := by
      simp [slotEmpty]
    rw [hz, List.append_nil]
  · intro c hc hne hval
    have hrec : records (d ++ c) = records d ++ [c] := records_append ha hc
    have hokt : recordsOk (d ++ c) = true := by
      rw [recordsOk, hrec, List.all_append]
      refine Bool.and_eq_true_iff.mpr ⟨hok, ?_⟩
      simp [slotOk, hval]
    rw [openIndex_ok_of_valid (hvapp c) hokt]
    rw [hstv, vaultsOfDisk, vaultsOfDisk, hrec]
    rw [decodeAll, decodeAll, List.filter_append, List.map_append]
    have hc1 : ([c].filter (fun c => ! slotEmpty c)) = [c] := by
      simp [hne]
    rw [hc1]
    rfl
  · intro c hc hne hval
    apply openIndex_err_of_invalid (hvapp c)
    rw [recordsOk, records_append ha hc, List.all_append]
    simp [slotOk, hne, hval]

/-- A well-formed one-record index file, used as the C8 witness base. -/
def c8d : List Nat := MAGIC ++ VERSION_LE ++ padRecord [97]

/-- The state `open` yields on `c8d`. -/
def c8st : VaultIndex := ⟨[[97]], ⟨c8d, 28, none⟩⟩

unseal openScan addScan removeScan slotsOf firstEmptySlotAux findRecAux in
/-- Witness for C8 on a concrete one-record file: a 3-byte fragment is
ignored, an all-zero record is skipped, a `"b"` record is decoded, and a
record starting with byte `0xFF` aborts the open. -/
theorem spec_C8_witness :
    openIndex (c8d ++ [1, 2, 3]) none =
      .ok ⟨c8st.vaults, ⟨c8d ++ [1, 2, 3], (c8d ++ [1, 2, 3]).length, none⟩⟩ ∧
    openIndex (c8d ++ List.replicate RECORD_SIZE 0) none =
      .ok ⟨c8st.vaults, ⟨c8d ++ List.replicate RECORD_SIZE 0,
        (c8d ++ List.replicate RECORD_SIZE 0).length, none⟩⟩ ∧
    openIndex (c8d ++ padRecord [98]) none =
      .ok ⟨c8st.vaults ++ [decodeSlot (padRecord [98])],
        ⟨c8d ++ padRecord [98], (c8d ++ padRecord [98]).length, none⟩⟩ ∧
    openIndex (c8d ++ (255 :: List.replicate 15 0)) none =
      .error .invalidData :=
  ⟨(spec_C8 c8d c8st (by decide) (by decide) (by decide)).1 [1, 2, 3]
      (by decide),
   (spec_C8 c8d c8st (by decide) (by decide) (by decide)).2.1,
   (spec_C8 c8d c8st (by decide) (by decide) (by decide)).2.2.1
      (padRecord [98]) (by decide) (by decide) (by decide),
   (spec_C8 c8d c8st (by decide) (by decide) (by decide)).2.2.2
      (255 :: List.replicate 15 0) (by decide) (by decide) (by decide)⟩

/-- An index file whose records region ends in a 5-byte fragment (as after a
crash mid-write), holding one whole record `"test"`. -/
def c1data : List Nat :=
  MAGIC ++ VERSION_LE ++ padRecord [116, 101, 115, 116] ++ [1, 2, 3, 4, 5]

/-- The state `open` yields on `c1data`: the fragment is ignored. -/
def c1stA : VaultIndex := ⟨[[116, 101, 115, 116]], ⟨c1data, 33, none⟩⟩

/-- The state after `add "x"` on `c1stA`: the record is appended at the
misaligned EOF offset 33. -/
def c1stB : VaultIndex :=
  ⟨[[116, 101, 115, 116], [120]], ⟨c1data ++ padRecord [120], 49, none⟩⟩

unseal openScan addScan removeScan slotsOf firstEmptySlotAux findRecAux in
/-- Counterexample to C1 as stated: on an index opened from a file with a
trailing partial record, `add "x"` succeeds and `"x"` is in `vaults()`, but
a fresh `open` of the resulting file does NOT contain `"x"` — the appended
record straddles a slot boundary and decodes as the junk name
`[1,2,3,4,5,120]` instead. -/
theorem spec_C1_counterexample :
    openIndex c1data none = .ok c1stA ∧
    addOp c1stA [120] = (.ok (), c1stB) ∧
    [120] ∈ c1stB.vaults ∧
    openIndex c1stB.file.data none =
      .ok ⟨[[116, 101, 115, 116], [1, 2, 3, 4, 5, 120]],
           ⟨c1stB.file.data, 49, none⟩⟩ ∧
    [120] ∉ [[116, 101, 115, 116], [1, 2, 3, 4, 5, 120]] := by
  decide

/-- C1 (amended): on an index opened from a file whose records region is
whole (no trailing fragment — the amendment the counterexample forces), for
every valid name (non-empty, at most 16 UTF-8 bytes, no NUL; as a Rust
`&str` it is valid UTF-8), `add(name)` succeeds, `vaults()` then contains
the name, and a fresh `open` of the resulting file also contains it. -/
theorem spec_C1 (d : List Nat) (st : VaultIndex) (name : List Nat)
    (hopen : openIndex d none = .ok st) (ha : alignedB d = true)
    (h1 : name ≠ []) (h2 : name.length ≤ RECORD_SIZE)
    (h3 : name.any (· == 0) = false) (hu : utf8Valid name = true) :
    (addOp st name).1 = .ok () ∧ name ∈ (addOp st name).2.vaults ∧
    Except.map (fun s => decide (name ∈ s.vaults))
      (openIndex (addOp st name).2.file.data none) = .ok true := by
  have h16 : RECORD_SIZE = 16 := rfl
  have h12 : HEADER_SIZE = 12 := rfl
  obtain ⟨hv, hok, hvd, hbad, hpos, halignf⟩ := openIndex_ok_inv hopen
  have ha' := halignf ha
  by_cases hmem : name ∈ st.vaults
  · rw [addOp_noop h1 h2 h3 hmem]
    refine ⟨rfl, hmem, ?_⟩
    rw [openIndex_ok_of_valid hv hok]
    rw [Except.map]
    have : name ∈ vaultsOfDisk st.file.data := hvd ▸ hmem
    rw [decide_eq_true this]
  · rw [addOp_write hbad h1 h2 h3 hmem]
    dsimp only
    refine ⟨rfl, List.mem_append.mpr (Or.inr (List.mem_singleton.mpr rfl)), ?_⟩
    have hlen12 : HEADER_SIZE ≤ st.file.data.length := validHeader_length hv
    rcases hfe : firstEmptySlot st.file.data with _ | j
    · have hnd : addResultData st.file.data name =
          st.file.data ++ padRecord name := by
        rw [addResultData, hfe]
      rw [hnd]
      have hvH : validHeader (st.file.data ++ padRecord name) = true := by
        simp only [validHeader, decide_eq_true_eq] at hv ⊢
        rw [List.take_append_of_le_length (by omega)]
        exact hv
      have hrec : records (st.file.data ++ padRecord name) =
          records st.file.data ++ [padRecord name] :=
        records_append ha' (padRecord_length h2)
      have hokH : recordsOk (st.file.data ++ padRecord name) = true := by
        rw [recordsOk, hrec, List.all_append]
        refine Bool.and_eq_true_iff.mpr ⟨hok, ?_⟩
        simp [slotOk_padRecord h3 hu]
      rw [openIndex_ok_of_valid hvH hokH]
      rw [Except.map]
      have hm : name ∈ vaultsOfDisk (st.file.data ++ padRecord name) := by
        rw [vaultsOfDisk, hrec]
        have := @mem_decodeAll (padRecord name)
          (records st.file.data ++ [padRecord name])
          (List.mem_append.mpr (Or.inr (List.mem_singleton.mpr rfl)))
          (slotEmpty_padRecord h1 h3)
        rwa [decodeSlot_padRecord h3] at this
      rw [decide_eq_true hm]
    · obtain ⟨_, hjb, _⟩ := firstEmptySlotAux_some
        (st.file.data.drop HEADER_SIZE).length (st.file.data.drop HEADER_SIZE)
        0 j (Nat.le_refl _) hfe
      simp only [Nat.sub_zero, List.length_drop] at hjb
      have hjlen : HEADER_SIZE + RECORD_SIZE * j + RECORD_SIZE ≤
          st.file.data.length := by
        simp only [HEADER_SIZE, RECORD_SIZE] at hjb hlen12 ⊢
        omega
      have hnd : addResultData st.file.data name =
          setChunk st.file.data j (padRecord name) := by
        rw [addResultData, hfe]
      rw [hnd]
      have hvH : validHeader (setChunk st.file.data j (padRecord name))
          = true := by
        rw [validHeader] at hv ⊢
        rw [setChunk_take_header (by omega)]
        exact hv
      have hrec := records_setChunk (padRecord_length h2) hjlen
      have hokH : recordsOk (setChunk st.file.data j (padRecord name))
          = true := by
        rw [recordsOk, hrec]
        exact all_set hok (slotOk_padRecord h3 hu)
      rw [openIndex_ok_of_valid hvH hokH]
      rw [Except.map]
      have hjlt : j < (records st.file.data).length := by
        rw [records, slotsOf_length (st.file.data.drop HEADER_SIZE).length _
          (Nat.le_refl _)]
        simp only [List.length_drop, HEADER_SIZE, RECORD_SIZE] at hjb ⊢
        omega
      have hm : name ∈ vaultsOfDisk (setChunk st.file.data j (padRecord name)) := by
        rw [vaultsOfDisk, hrec]
        have := mem_decodeAll (@mem_set_self _ _ _ (padRecord name) hjlt)
          (slotEmpty_padRecord h1 h3)
        rwa [decodeSlot_padRecord h3] at this
      rw [decide_eq_true hm]

unseal openScan addScan removeScan slotsOf firstEmptySlotAux findRecAux in
/-- Witness for C1 (amended) on a fragment-free index: adding `"a"` to a
fresh registry round-trips through a fresh open. -/
theorem spec_C1_witness :
    (addOp emptyIndex [97]).1 = .ok () ∧
    [97] ∈ (addOp emptyIndex [97]).2.vaults ∧
    Except.map (fun s => decide ([97] ∈ s.vaults))
      (openIndex (addOp emptyIndex [97]).2.file.data none) = .ok true :=
  spec_C1 (MAGIC ++ VERSION_LE) emptyIndex [97] (by decide) (by decide)
    (by decide) (by decide) (by decide) (by decide)

unseal openScan addScan removeScan slotsOf firstEmptySlotAux findRecAux in
/-- Counterexample to C3 as stated: on an index opened from a file with a
trailing 5-byte fragment, a successful `add` appends its record at EOF
offset 33, which is not `header_size + slot_index * record_width` for any
slot index (`(33 - 12) % 16 = 5`), and the records region is no longer a
whole number of records. -/
theorem spec_C3_counterexample :
    openIndex c1data none = .ok c1stA ∧
    addOp c1stA [120] = (.ok (), c1stB) ∧
    c1stB.file.data.drop 33 = padRecord [120] ∧
    (33 - HEADER_SIZE) % RECORD_SIZE = 5 ∧
    (c1stB.file.data.length - HEADER_SIZE) % RECORD_SIZE = 5 := by
  decide

/-- C3 (amended): on a fault-free index whose records region is whole (the
amendment the counterexample forces), every record write lands on a slot
boundary `header_size + slot_index * record_width`: the region stays whole
across every `add` and `remove`; the file never shrinks; a successful fresh
`add` grows the file by exactly one record width (appending) precisely when
no all-zero slot exists, and otherwise overwrites the first all-zero slot
in place, leaving the length unchanged; `remove` never changes the file
length. -/
theorem spec_C3 :
    (∀ st name r st', st.file.bad = none → alignedB st.file.data = true →
      addOp st name = (r, st') →
      alignedB st'.file.data = true ∧
      st.file.data.length ≤ st'.file.data.length ∧
      (r = .ok () → name ∉ st.vaults →
        ((firstEmptySlot st.file.data = none →
            st'.file.data = st.file.data ++ padRecord name ∧
            st'.file.data.length = st.file.data.length + RECORD_SIZE) ∧
         (∀ j, firstEmptySlot st.file.data = some j →
            st'.file.data = setChunk st.file.data j (padRecord name) ∧
            st'.file.data.length = st.file.data.length)))) ∧
    (∀ st name r st', st.file.bad = none → alignedB st.file.data = true →
      removeOp st name = (r, st') →
      st'.file.data.length = st.file.data.length ∧
      alignedB st'.file.data = true) := by
  have h16 : RECORD_SIZE = 16 := rfl
  have h12 : HEADER_SIZE = 12 := rfl
  constructor
  · intro st name r st' hb ha heq
    by_cases h1 : name = []
    · rw [addOp, if_pos h1] at heq
      cases heq
      exact ⟨ha, Nat.le_refl _, fun hro => by cases hro⟩
    · by_cases h2 : RECORD_SIZE < name.length
      · rw [addOp, if_neg h1, if_pos h2] at heq
        cases heq
        exact ⟨ha, Nat.le_refl _, fun hro => by cases hro⟩
      · by_cases h3 : name.any (· == 0)
        · rw [addOp, if_neg h1, if_neg h2, if_pos h3] at heq
          cases heq
          exact ⟨ha, Nat.le_refl _, fun hro => by cases hro⟩
        · by_cases h4 : name ∈ st.vaults
          · rw [addOp_noop h1 (by omega) (Bool.eq_false_iff.mpr h3) h4] at heq
            cases heq
            exact ⟨ha, Nat.le_refl _, fun _ hnm => absurd h4 hnm⟩
          · rw [addOp_write hb h1 (by omega) (Bool.eq_false_iff.mpr h3) h4]
              at heq
            cases heq
            dsimp only
            rcases hfe : firstEmptySlot st.file.data with _ | j
            · have hnd : addResultData st.file.data name =
                  st.file.data ++ padRecord name := by
                rw [addResultData, hfe]
              have hlen : (st.file.data ++ padRecord name).length =
                  st.file.data.length + RECORD_SIZE := by
                rw [List.length_append, padRecord_length (by omega)]
              refine ⟨?_, ?_, ?_⟩
              · rw [hnd]
                simp only [alignedB, decide_eq_true_eq] at ha ⊢
                rw [hlen]
                simp only [HEADER_SIZE, RECORD_SIZE] at ha ⊢
                omega
              · rw [hnd, hlen]
                omega
              · intro _ _
                constructor
                · intro _
                  exact ⟨hnd, by rw [hnd, hlen]⟩
                · intro j hj
                  cases hj
            · obtain ⟨_, hjb, _⟩ := firstEmptySlotAux_some
                (st.file.data.drop HEADER_SIZE).length
                (st.file.data.drop HEADER_SIZE) 0 j (Nat.le_refl _) hfe
              simp only [Nat.sub_zero, List.length_drop] at hjb
              have hjlen : HEADER_SIZE + RECORD_SIZE * j + RECORD_SIZE ≤
                  st.file.data.length := by
                simp only [HEADER_SIZE, RECORD_SIZE] at hjb ⊢
                omega
              have hnd : addResultData st.file.data name =
                  setChunk st.file.data j (padRecord name) := by
                rw [addResultData, hfe]
              have hlen : (setChunk st.file.data j (padRecord name)).length =
                  st.file.data.length :=
                setChunk_length (padRecord_length (by omega)) hjlen
              refine ⟨?_, ?_, ?_⟩
              · rw [hnd]
                simp only [alignedB, decide_eq_true_eq] at ha ⊢
                rw [hlen]
                exact ha
              · rw [hnd, hlen]
              · intro _ _
                constructor
                · intro hn
                  cases hn
                · intro j' hj'
                  cases hj'
                  exact ⟨hnd, by rw [hnd, hlen]⟩
  · intro st name r st' hb ha heq
    by_cases hmem : name ∈ st.vaults
    · obtain ⟨herr, hnone, hsome⟩ := removeOp_present hb hmem
      rcases hfr : findRecAux name (st.file.data.drop HEADER_SIZE) 0
        with e | o
      · rw [herr e hfr] at heq
        cases heq
        exact ⟨rfl, ha⟩
      · rcases o with _ | j
        · obtain ⟨q', hq⟩ := hnone hfr
          rw [hq] at heq
          cases heq
          exact ⟨rfl, ha⟩
        · obtain ⟨_, hjb⟩ := findRecAux_some
            (st.file.data.drop HEADER_SIZE).length
            (st.file.data.drop HEADER_SIZE) 0 j name (Nat.le_refl _) hfr
          simp only [Nat.sub_zero, List.length_drop] at hjb
          have hjlen : HEADER_SIZE + RECORD_SIZE * j + RECORD_SIZE ≤
              st.file.data.length := by
            simp only [HEADER_SIZE, RECORD_SIZE] at hjb ⊢
            omega
          have hlen : (setChunk st.file.data j
              (List.replicate RECORD_SIZE 0)).length = st.file.data.length :=
            setChunk_length (by simp) hjlen
          rw [hsome j hfr] at heq
          cases heq
          dsimp only
          constructor
          · exact hlen
          · simp only [alignedB, decide_eq_true_eq] at ha ⊢
            rw [hlen]
            exact ha
    · rw [removeOp_absent hmem] at heq
      cases heq
      exact ⟨rfl, ha⟩

unseal openScan addScan removeScan slotsOf firstEmptySlotAux findRecAux in
/-- Witness for C3 (amended): a fresh `add "a"` keeps the region whole and
never shrinks the file; `remove "a"` on a two-record index leaves the
length unchanged. -/
theorem spec_C3_witness :
    (alignedB ((addOp emptyIndex [97]).2).file.data = true ∧
     emptyIndex.file.data.length ≤
       ((addOp emptyIndex [97]).2).file.data.length) ∧
    (((removeOp c4st2 [97]).2).file.data.length = c4st2.file.data.length ∧
     alignedB ((removeOp c4st2 [97]).2).file.data = true) :=
  ⟨⟨(spec_C3.1 emptyIndex [97] (addOp emptyIndex [97]).1
        (addOp emptyIndex [97]).2 rfl (by decide) rfl).1,
    (spec_C3.1 emptyIndex [97] (addOp emptyIndex [97]).1
        (addOp emptyIndex [97]).2 rfl (by decide) rfl).2.1⟩,
   spec_C3.2 c4st2 [97] (removeOp c4st2 [97]).1 (removeOp c4st2 [97]).2 rfl
     (by decide) rfl⟩

/-- An index file holding the record `"t"` followed by a 1-byte fragment
`0xFF` (as a crash mid-write could leave). -/
def c6data : List Nat := MAGIC ++ VERSION_LE ++ padRecord [116] ++ [255]

/-- The state `open` yields on `c6data`. -/
def c6stA : VaultIndex := ⟨[[116]], ⟨c6data, 29, none⟩⟩

/-- The state after `add "x"` on `c6stA`: the record is appended after the
fragment, so the chunk at offset 28 now starts with `0xFF`. -/
def c6stB : VaultIndex :=
  ⟨[[116], [120]], ⟨c6data ++ padRecord [120], 45, none⟩⟩

unseal openScan addScan removeScan slotsOf firstEmptySlotAux findRecAux in
/-- Counterexample to C6 as stated: a state reachable by `open` then `add`
in which `"x"` is present in the in-memory set, yet `remove "x"` returns an
`InvalidData` error — not `true` — because the scan decodes the straddling
chunk `[255, 120, ...]` as invalid UTF-8 before reaching any match. -/
theorem spec_C6_counterexample :
    openIndex c6data none = .ok c6stA ∧
    addOp c6stA [120] = (.ok (), c6stB) ∧
    [120] ∈ c6stB.vaults ∧
    removeOp c6stB [120] =
      (.error .invalidData, ⟨c6stB.vaults, ⟨c6stB.file.data, HEADER_SIZE, none⟩⟩) := by
  decide

/-- C6 (amended): `remove` of a name absent from the in-memory set returns
false and leaves the state (memory and file) untouched.  When the name is
present and every full record slot of the fault-free file decodes (the
amendment the counterexample forces: all-zero, or valid UTF-8 up to the
first NUL), `remove` returns true — whether or not the on-disk scan finds a
matching record — and erases the first in-memory occurrence; if the list
had no duplicates the name is gone from `vaults()` and an immediately
repeated `remove` returns false. -/
theorem spec_C6 (st : VaultIndex) (name : List Nat) :
    (name ∉ st.vaults → removeOp st name = (.ok false, st)) ∧
    (name ∈ st.vaults → st.file.bad = none → recordsOk st.file.data = true →
      (removeOp st name).1 = .ok true ∧
      (removeOp st name).2.vaults = st.vaults.erase name ∧
      (st.vaults.Nodup → name ∉ (removeOp st name).2.vaults ∧
        removeOp ((removeOp st name).2) name =
          (.ok false, (removeOp st name).2))) := by
  constructor
  · exact fun h => removeOp_absent h
  · intro hmem hb hok
    obtain ⟨herr, hnone, hsome⟩ := removeOp_present hb hmem
    obtain ⟨o, ho⟩ := findRecAux_ok_of_recordsOk
      (st.file.data.drop HEADER_SIZE).length (st.file.data.drop HEADER_SIZE)
      0 name (Nat.le_refl _) hok
    have hbase : (removeOp st name).1 = .ok true ∧
        (removeOp st name).2.vaults = st.vaults.erase name := by
      rcases o with _ | j
      · obtain ⟨q', hq⟩ := hnone ho
        rw [hq]
        exact ⟨rfl, rfl⟩
      · rw [hsome j ho]
        exact ⟨rfl, rfl⟩
    refine ⟨hbase.1, hbase.2, ?_⟩
    intro hnd
    have hnm : name ∉ (removeOp st name).2.vaults := by
      rw [hbase.2]
      intro hc
      exact absurd rfl (hnd.mem_erase_iff.mp hc).1
    exact ⟨hnm, removeOp_absent hnm⟩

unseal openScan addScan removeScan slotsOf firstEmptySlotAux findRecAux in
/-- Witness for C6 (amended): removing a missing name from a fresh index
returns false untouched; removing `"a"` from the clean two-record index
returns true, drops it from memory, and a repeat returns false. -/
theorem spec_C6_witness :
    removeOp emptyIndex [97] = (.ok false, emptyIndex) ∧
    (removeOp c4st2 [97]).1 = .ok true ∧
    (removeOp c4st2 [97]).2.vaults = c4st2.vaults.erase [97] ∧
    [97] ∉ (removeOp c4st2 [97]).2.vaults ∧
    removeOp ((removeOp c4st2 [97]).2) [97] =
      (.ok false, (removeOp c4st2 [97]).2) :=
  ⟨(spec_C6 emptyIndex [97]).1 (by decide),
   ((spec_C6 c4st2 [97]).2 (by decide) rfl (by decide)).1,
   ((spec_C6 c4st2 [97]).2 (by decide) rfl (by decide)).2.1,
   (((spec_C6 c4st2 [97]).2 (by decide) rfl (by decide)).2.2 (by decide)).1,
   (((spec_C6 c4st2 [97]).2 (by decide) rfl (by decide)).2.2 (by decide)).2⟩

/-- A clean two-record index file `["t", "u"]` whose backing device fails
at byte offset 30 (inside the second record). -/
def c2data : List Nat := MAGIC ++ VERSION_LE ++ padRecord [116] ++ padRecord [117]

/-- The live registry on `c2data` with the injected fault. -/
def c2st : VaultIndex := ⟨[[116], [117]], ⟨c2data, 44, some 30⟩⟩

unseal openScan addScan removeScan slotsOf firstEmptySlotAux findRecAux in
/-- Counterexample to C2 as stated: with an underlying I/O fault at offset
30, `open` and `add` surface the I/O error, but `remove "u"` hits the same
faulty read while scanning the records region and silently swallows it,
returning `Ok(true)` instead of an error. -/
theorem spec_C2_counterexample :
    openIndex c2data (some 30) = .error .ioError ∧
    (addOp c2st [118]).1 = .error .ioError ∧
    (removeOp c2st [117]).1 = .ok true := by
  decide

/-- A device fault inside the 12 bytes `init_file` writes makes the
reinitialization fail with an I/O error. -/
theorem init_file_fault {f : VFile} {b : Nat} (hb : f.bad = some b)
    (hlt : b < HEADER_SIZE) : init_file f = .error .ioError := by
  obtain ⟨d, q, bb⟩ := f
  subst hb
  rw [init_file]
  by_cases hb8 : b < 8
  · have hw1 : fwrite ⟨[], 0, some b⟩ MAGIC = .error .ioError := by
      rw [fwrite, if_pos (by rw [badIn]; simp [MAGIC]; omega)]
    rw [hw1]
    rfl
  · have hw1 : fwrite ⟨[], 0, some b⟩ MAGIC = .ok ⟨MAGIC, 8, some b⟩ := by
      rw [fwrite, if_neg (by rw [badIn]; simp [MAGIC]; omega)]
      rfl
    rw [hw1]
    simp only [Except.bind, bind, Except.instMonad]
    have hw2 : fwrite ⟨MAGIC, 8, some b⟩ VERSION_LE = .error .ioError := by
      rw [fwrite, if_pos ?_]
      rw [badIn]
      have hvl : VERSION_LE.length = 4 := rfl
      simp only [hvl, decide_eq_true_eq]
      simp only [HEADER_SIZE] at hlt
      constructor
      · omega
      · omega
    rw [hw2]

/-- `check_header` on a file too short for a header reports a plain
mismatch even with a fault beyond EOF (the read never touches it). -/
theorem check_header_eof_fault {d : List Nat} {q b : Nat} (hd : d.length ≤ b)
    (hlen : d.length < HEADER_SIZE) :
    check_header ⟨d, q, some b⟩ = .ok (false, ⟨d, 0, some b⟩) := by
  have hread : freadExact ⟨d, 0, some b⟩ HEADER_SIZE =
      .error .unexpectedEof := by
    rw [freadExact]
    rw [if_neg (by
      rw [badIn]
      dsimp only
      simp only [decide_eq_true_eq]
      simp only [HEADER_SIZE] at hlen
      omega)]
    rw [if_pos (by
      dsimp only
      simp only [HEADER_SIZE] at hlen ⊢
      omega)]
  show (match freadExact (⟨d, 0, some b⟩ : VFile) HEADER_SIZE with
    | Except.ok (header, f1) =>
        if header.take 8 = MAGIC then
          Except.ok (decide (u32le (header.drop 8) = 1), f1)
        else Except.ok (false, f1)
    | Except.error VErr.unexpectedEof =>
        Except.ok (false, (⟨d, 0, some b⟩ : VFile))
    | Except.error e => Except.error e)
      = Except.ok (false, (⟨d, 0, some b⟩ : VFile))
  rw [hread]

/-- The reinitialization writes of `open` propagate device faults: a short
(hence invalid-header) file on a device failing inside the first 12 bytes
makes `open` fail with an I/O error from the header write. -/
theorem openIndex_reinit_fault {d : List Nat} {b : Nat} (hd : d.length ≤ b)
    (hb : b < HEADER_SIZE) : openIndex d (some b) = .error .ioError := by
  rw [openIndex]
  rw [check_header_eof_fault hd (by simp only [HEADER_SIZE] at hb ⊢; omega)]
  simp only [Except.bind, bind, Except.instMonad, pure, Except.pure,
    Bool.false_eq_true, if_false]
  rw [init_file_fault rfl hb]

/-- The file position the record write of `add` targets, given the slot
scan outcome: the found all-zero slot, or end-of-file. -/
def addWriteTarget (o : Option Nat) (f1 : VFile) : VFile :=
  match o with
  | some slot => ⟨f1.data, calculate_offset_for_slot slot, f1.bad⟩
  | none => ⟨f1.data, f1.data.length, f1.bad⟩

/-- The record write of `add` propagates device faults: if the slot scan
succeeds but writing the padded record at the chosen offset (the found
slot, or EOF) fails, `add` returns that error. -/
theorem addOp_write_err {st : VaultIndex} {name : List Nat} {e : VErr}
    {o : Option Nat} {f1 : VFile}
    (h1 : name ≠ []) (h2 : name.length ≤ RECORD_SIZE)
    (h3 : name.any (· == 0) = false) (h4 : name ∉ st.vaults)
    (hscan : addScan ⟨st.file.data, HEADER_SIZE, st.file.bad⟩ 0 = .ok (o, f1))
    (hw : fwrite (addWriteTarget o f1) (padRecord name) = .error e) :
    (addOp st name).1 = .error e := by
  obtain ⟨vs, d, q, b⟩ := st
  rw [padRecord] at hw
  rw [addOp, if_neg h1, if_neg (by omega), if_neg (by simp [h3]),
    if_neg (by simpa using h4)]
  dsimp only
  dsimp only at hscan
  rw [hscan]
  rcases o with _ | j
  · dsimp only [addWriteTarget] at hw
    dsimp only
    rw [hw]
  · dsimp only [addWriteTarget] at hw
    dsimp only
    rw [hw]

/-- C2 (amended): every file I/O failure during `open` propagates as a
typed error — faults hit by its header read or record scan (first clause),
and faults hit by its reinitialization header write (second clause); every
file I/O failure during `add` propagates — faults hit by its slot scan
(third clause) and faults hit by its record write at the chosen offset
(fourth clause); nothing is retried.  The single exception, which the
counterexample forces, is the record scan of `remove`: its
`while let Ok(())` loop treats an underlying I/O error as end-of-scan, and
`remove` still returns true after dropping the name from memory (fifth
clause). -/
theorem spec_C2 :
    (∀ d b, validHeader d = true → recordsOk d = true → b < d.length →
      openIndex d (some b) = .error .ioError) ∧
    (∀ (d : List Nat) (b : Nat), d.length ≤ b → b < HEADER_SIZE →
      openIndex d (some b) = .error .ioError) ∧
    (∀ st (name : List Nat) e, name ≠ [] → name.length ≤ RECORD_SIZE →
      name.any (· == 0) = false → name ∉ st.vaults →
      addScan ⟨st.file.data, HEADER_SIZE, st.file.bad⟩ 0 = .error e →
      (addOp st name).1 = .error e) ∧
    (∀ st (name : List Nat) e (o : Option Nat) f1, name ≠ [] →
      name.length ≤ RECORD_SIZE → name.any (· == 0) = false →
      name ∉ st.vaults →
      addScan ⟨st.file.data, HEADER_SIZE, st.file.bad⟩ 0 = .ok (o, f1) →
      fwrite (addWriteTarget o f1) (padRecord name) = .error e →
      (addOp st name).1 = .error e) ∧
    (∀ st (name : List Nat) i f1, name ∈ st.vaults →
      removeScan name ⟨st.file.data, HEADER_SIZE, st.file.bad⟩ 0 =
        .ok (false, i, f1) →
      removeOp st name = (.ok true, ⟨st.vaults.erase name, f1⟩)) :=
  ⟨fun _ _ hv hok hb => openIndex_fault hv hok hb,
   fun _ _ hd hb => openIndex_reinit_fault hd hb,
   fun _ _ _ h1 h2 h3 h4 hs => by rw [addOp_scan_err h1 h2 h3 h4 hs],
   fun _ _ _ _ _ h1 h2 h3 h4 hs hw => addOp_write_err h1 h2 h3 h4 hs hw,
   fun _ _ _ _ hm hs => removeOp_scan_not_found hm hs⟩

/-- The one-record index on a device failing at offset 30: beyond EOF
(byte 28), so the slot scan passes but the append write fails. -/
def c2wst : VaultIndex := ⟨[[116]], ⟨c8d, 28, some 30⟩⟩

unseal openScan addScan removeScan slotsOf firstEmptySlotAux findRecAux in
/-- Witness for C2 (amended): `open` surfaces a record-scan read fault and
a reinitialization-write fault; `add` surfaces a slot-scan read fault and
a record-write fault; `remove` swallows its scan read fault and reports
success. -/
theorem spec_C2_witness :
    openIndex c2data (some 30) = .error .ioError ∧
    openIndex [] (some 3) = .error .ioError ∧
    (addOp c2st [118]).1 = .error .ioError ∧
    (addOp c2wst [118]).1 = .error .ioError ∧
    removeOp c2st [117] =
      (.ok true, ⟨c2st.vaults.erase [117], ⟨c2data, 28, some 30⟩⟩) :=
  ⟨spec_C2.1 c2data 30 (by decide) (by decide) (by decide),
   spec_C2.2.1 [] 3 (by decide) (by decide),
   spec_C2.2.2.1 c2st [118] .ioError (by decide) (by decide) (by decide)
     (by decide) (by decide),
   spec_C2.2.2.2.1 c2wst [118] .ioError none ⟨c8d, 28, some 30⟩ (by decide)
     (by decide) (by decide) (by decide) (by decide) (by decide),
   spec_C2.2.2.2.2 c2st [117] 1 ⟨c2data, 28, some 30⟩ (by decide) (by decide)⟩

/-! ## Claim C10 -/

theorem length_of_mem_slotsOf :
    ∀ (n : Nat) (r c : List Nat), r.length ≤ n → c ∈ slotsOf r →
      c.length = RECORD_SIZE := by
  have h16 : RECORD_SIZE = 16 := rfl
  intro n
  induction n with
  | zero =>
    intro r c hn hm
    rw [slotsOf_nil_of_short (by omega)] at hm
    cases hm
  | succ n ih =>
    intro r c hn hm
    by_cases hlt : r.length < RECORD_SIZE
    · rw [slotsOf_nil_of_short hlt] at hm
      cases hm
    · rw [slotsOf_cons_of_long hlt] at hm
      rcases List.mem_cons.mp hm with h | h
      · rw [h, List.length_take]
        omega
      · exact ih (r.drop RECORD_SIZE) c (by simp; omega) h

/-- The in-memory list never gains entries except through `remove`-free
paths: `remove` can only keep or erase. -/
theorem removeOp_vaults_shape (st : VaultIndex) (name : List Nat) :
    (removeOp st name).2.vaults = st.vaults ∨
    (removeOp st name).2.vaults = st.vaults.erase name := by
  obtain ⟨vs, d, q, b⟩ := st
  by_cases hmem : name ∈ vs
  · rw [removeOp, if_neg (by simpa using hmem)]
    dsimp only
    rcases hscan : removeScan name ⟨d, HEADER_SIZE, b⟩ 0 with e | ⟨found, i, f1⟩
    · exact Or.inl rfl
    · rcases found with _ | _
      · exact Or.inr rfl
      · dsimp only
        rcases hw : fwrite ⟨f1.data, calculate_offset_for_slot i, f1.bad⟩
            (List.replicate RECORD_SIZE 0) with e | f3
        · exact Or.inr rfl
        · exact Or.inr rfl
  · rw [removeOp_absent (by simpa using hmem)]
    exact Or.inl rfl

/-- A crafted record whose first byte is NUL but which is not all-zero. -/
def c10data : List Nat := MAGIC ++ VERSION_LE ++ (0 :: 1 :: List.replicate 14 0)

unseal openScan addScan removeScan slotsOf firstEmptySlotAux findRecAux in
/-- Counterexample to C10 as stated: `open` on a file holding the non-zero
record `[0, 1, 0, ...]` decodes it by truncating at its first NUL — index
0 — and stores the EMPTY string in `vaults()`, so open does not establish
the non-emptiness part of the invariant. -/
theorem spec_C10_counterexample :
    openIndex c10data none = .ok ⟨[[]], ⟨c10data, 28, none⟩⟩ ∧
    ([] : List Nat) ∈ [([] : List Nat)] ∧ ([] : List Nat).length = 0 := by
  decide

/-- C10 (amended): every name `open` places in `vaults()` has UTF-8
byte-length at most 16 and contains no NUL byte (non-emptiness can fail on
a corrupt record, as the counterexample shows); `add` — successful or
failed — only ever appends the validated name it was given (non-empty,
at most 16 bytes, NUL-free), and `remove` never adds entries, so the
at-most-16-bytes/no-NUL invariant is preserved by every operation. -/
theorem spec_C10 :
    (∀ d st, openIndex d none = .ok st →
      ∀ nm ∈ st.vaults, nm.length ≤ RECORD_SIZE ∧ (0 : Nat) ∉ nm) ∧
    (∀ st name r st', addOp st name = (r, st') →
      ∀ nm ∈ st'.vaults, nm ∈ st.vaults ∨
        (nm = name ∧ nm ≠ [] ∧ nm.length ≤ RECORD_SIZE ∧
         nm.any (· == 0) = false)) ∧
    (∀ st name r st', removeOp st name = (r, st') →
      ∀ nm ∈ st'.vaults, nm ∈ st.vaults) := by
  refine ⟨?_, ?_, ?_⟩
  · intro d st hopen nm hm
    by_cases hv : validHeader d = true
    · by_cases hok : recordsOk d = true
      · rw [openIndex_ok_of_valid hv hok] at hopen
        cases hopen
        simp only at hm
        rw [vaultsOfDisk, decodeAll] at hm
        obtain ⟨c, hc, hdec⟩ := List.mem_map.mp hm
        obtain ⟨hcs, _⟩ := List.mem_filter.mp hc
        have hclen : c.length = RECORD_SIZE :=
          length_of_mem_slotsOf (d.drop HEADER_SIZE).length _ c
            (Nat.le_refl _) hcs
        subst hdec
        exact ⟨by calc (decodeSlot c).length ≤ c.length := decodeSlot_length_le c
                _ = RECORD_SIZE := hclen,
               decodeSlot_not_mem_zero c⟩
      · rw [openIndex_err_of_invalid hv (Bool.eq_false_iff.mpr hok)] at hopen
        cases hopen
    · rw [openIndex_reinit (Bool.eq_false_iff.mpr hv)] at hopen
      cases hopen
      cases hm
  · intro st name r st' heq nm hm
    have hst' : st' = (addOp st name).2 := by rw [heq]
    subst hst'
    rcases addOp_shape st name with ⟨_, hvv, _, _⟩ | ⟨_, h1, h2, h3, hcase⟩
    · rw [hvv] at hm
      exact Or.inl hm
    · rcases hcase with ⟨hnoop, _⟩ | ⟨happ, _⟩
      · rw [hnoop] at hm
        exact Or.inl hm
      · rw [happ] at hm
        rcases List.mem_append.mp hm with h | h
        · exact Or.inl h
        · rw [List.mem_singleton] at h
          exact Or.inr ⟨h, h ▸ h1, h ▸ h2, h ▸ h3⟩
  · intro st name r st' heq nm hm
    have hst' : st' = (removeOp st name).2 := by rw [heq]
    subst hst'
    rcases removeOp_vaults_shape st name with h | h
    · rw [h] at hm
      exact hm
    · rw [h] at hm
      exact List.mem_of_mem_erase hm

unseal openScan addScan removeScan slotsOf firstEmptySlotAux findRecAux in
/-- Witness for C10 (amended) at concrete inputs: the name `open` reads
from a one-record file is short and NUL-free; an `add` either preserves
membership or adds its own validated name; `remove` only removes. -/
theorem spec_C10_witness :
    ([97].length ≤ RECORD_SIZE ∧ (0 : Nat) ∉ [97]) ∧
    ([98] ∈ c4st1.vaults ∨
      ([98] = [98] ∧ [98] ≠ [] ∧ [98].length ≤ RECORD_SIZE ∧
       [98].any (· == 0) = false)) ∧
    [98] ∈ c4st2.vaults :=
  ⟨spec_C10.1 c8d c8st (by decide) [97] (by decide),
   spec_C10.2.1 c4st1 [98] (addOp c4st1 [98]).1 (addOp c4st1 [98]).2 rfl
     [98] (by decide),
   spec_C10.2.2 c4st2 [97] (removeOp c4st2 [97]).1 (removeOp c4st2 [97]).2 rfl
     [98] (by decide)⟩
